import Mathlib

/-!
Verification of the search-engine core (`src/search_engine.py`) against its
natural-language specification.

The Python source is shallowly embedded below:

* Python `dict` values are association lists (`List (key × value)`) with
  insertion-order semantics; `dictFind?`, `dictInsert`, `dictSet` model
  membership test, insert-or-assign, and assignment to an existing key.
* `defaultdict(int)` reads that materialise a zero entry are modelled
  explicitly (`ddTouch`), because that side effect matters for the
  immutability claim about `search`.
* The BFS crawler (`WebCrawler.crawl`) is a fuel-indexed loop; the fuel
  chosen (`crawlFuel`) is proven sufficient for the queue to drain.
* Scores are real numbers (`ℝ`, with `Real.log` for `math.log`); Python's
  floating point is out of scope, as the spec states the formulas over
  exact reals.
* External collaborators (file enumeration, file reading, BeautifulSoup
  parsing) are modelled as an abstract `Web`: a directory listing plus a
  fetch function returning the parser's outputs (optional title element,
  visible text, list of hrefs).  Everything from tokenisation onward is
  translated from the source.
-/

/-! ## Association-list model of Python dicts -/

/-- Lookup in an association list (Python `d[k]` on a present key, or the
test `k in d`): the value at the first matching key. -/
def dictFind? {α β : Type} [DecidableEq α] (l : List (α × β)) (k : α) : Option β :=
  (l.find? (fun p => decide (p.1 = k))).map (fun p => p.2)

/-- Python dict assignment to a key already present: the binding keeps its
position, its value is replaced. -/
def dictSet {α β : Type} [DecidableEq α] (l : List (α × β)) (k : α) (v : β) :
    List (α × β) :=
  l.map (fun p => if p.1 = k then (k, v) else p)

/-- Python dict assignment `d[k] = v`: replace in place if the key exists,
otherwise append the new binding (insertion order). -/
def dictInsert {α β : Type} [DecidableEq α] (l : List (α × β)) (k : α) (v : β) :
    List (α × β) :=
  if (dictFind? l k).isSome then dictSet l k v else l ++ [(k, v)]

/-- The keys of an association list, in order. -/
def dictKeys {α β : Type} (l : List (α × β)) : List α := l.map (fun p => p.1)

theorem dictFind?_nil {α β : Type} [DecidableEq α] (k : α) :
    dictFind? ([] : List (α × β)) k = none := rfl

theorem dictFind?_cons {α β : Type} [DecidableEq α] (p : α × β) (l : List (α × β)) (k : α) :
    dictFind? (p :: l) k = if p.1 = k then some p.2 else dictFind? l k := by
  by_cases h : p.1 = k <;> simp [dictFind?, List.find?, h]

theorem dictFind?_append {α β : Type} [DecidableEq α] (l₁ l₂ : List (α × β)) (k : α) :
    dictFind? (l₁ ++ l₂) k =
      match dictFind? l₁ k with
      | some v => some v
      | none => dictFind? l₂ k := by
  induction l₁ with
  | nil => simp [dictFind?_nil]
  | cons p l ih =>
      by_cases h : p.1 = k <;> simp [dictFind?_cons, h, ih]

theorem dictFind?_isSome_iff_mem_keys {α β : Type} [DecidableEq α]
    (l : List (α × β)) (k : α) :
    (dictFind? l k).isSome ↔ k ∈ dictKeys l := by
  induction l with
  | nil => simp [dictFind?_nil, dictKeys]
  | cons p l ih =>
      by_cases h : p.1 = k <;>
        simp [dictFind?_cons, h, dictKeys, ih] <;> tauto

theorem dictFind?_eq_none_of_not_mem_keys {α β : Type} [DecidableEq α]
    {l : List (α × β)} {k : α} (h : k ∉ dictKeys l) :
    dictFind? l k = none := by
  cases hf : dictFind? l k with
  | none => rfl
  | some v =>
      exact absurd ((dictFind?_isSome_iff_mem_keys l k).mp (by simp [hf])) h

theorem dictFind?_mem {α β : Type} [DecidableEq α]
    {l : List (α × β)} {k : α} {v : β} (h : dictFind? l k = some v) :
    (k, v) ∈ l := by
  induction l with
  | nil => simp [dictFind?_nil] at h
  | cons p l ih =>
      rw [dictFind?_cons] at h
      by_cases hk : p.1 = k
      · simp only [if_pos hk, Option.some.injEq] at h
        cases p
        simp_all
      · rw [if_neg hk] at h
        exact List.mem_cons_of_mem _ (ih h)

theorem mem_keys_of_dictFind? {α β : Type} [DecidableEq α]
    {l : List (α × β)} {k : α} {v : β} (h : dictFind? l k = some v) :
    k ∈ dictKeys l := by
  have := dictFind?_mem h
  simp only [dictKeys, List.mem_map]
  exact ⟨(k, v), this, rfl⟩

theorem mem_dictFind?_of_nodup {α β : Type} [DecidableEq α]
    {l : List (α × β)} (hnd : (dictKeys l).Nodup) {k : α} {v : β}
    (h : (k, v) ∈ l) : dictFind? l k = some v := by
  induction l with
  | nil => simp at h
  | cons p l ih =>
      simp only [dictKeys, List.map_cons, List.nodup_cons] at hnd
      rcases List.mem_cons.mp h with h | h
      · subst h
        simp [dictFind?_cons]
      · have hkeys : k ∈ dictKeys l := by
          simp only [dictKeys, List.mem_map]
          exact ⟨(k, v), h, rfl⟩
        have hk : p.1 ≠ k := fun he => hnd.1 (he ▸ (by simpa [dictKeys] using hkeys))
        rw [dictFind?_cons, if_neg hk]
        exact ih hnd.2 h

theorem dictKeys_dictSet {α β : Type} [DecidableEq α] (l : List (α × β)) (k : α) (v : β) :
    dictKeys (dictSet l k v) = dictKeys l := by
  simp only [dictKeys, dictSet, List.map_map]
  apply List.map_congr_left
  intro p _
  by_cases h : p.1 = k <;> simp [Function.comp, h]

theorem dictFind?_dictSet_ne {α β : Type} [DecidableEq α]
    (l : List (α × β)) (k k' : α) (v : β) (h : k' ≠ k) :
    dictFind? (dictSet l k v) k' = dictFind? l k' := by
  induction l with
  | nil => rfl
  | cons p l ih =>
      by_cases hp : p.1 = k
      · subst hp
        rw [dictSet, List.map_cons, if_pos rfl, dictFind?_cons, dictFind?_cons,
          if_neg (fun he => h he.symm), if_neg (fun he => h he.symm)]
        exact ih
      · rw [dictSet, List.map_cons, if_neg hp, dictFind?_cons, dictFind?_cons]
        by_cases hk : p.1 = k'
        · rw [if_pos hk, if_pos hk]
        · rw [if_neg hk, if_neg hk]
          exact ih

theorem dictFind?_dictSet_self {α β : Type} [DecidableEq α]
    (l : List (α × β)) (k : α) (v : β) (h : (dictFind? l k).isSome) :
    dictFind? (dictSet l k v) k = some v := by
  induction l with
  | nil => simp [dictFind?_nil] at h
  | cons p l ih =>
      by_cases hp : p.1 = k
      · subst hp
        rw [dictSet, List.map_cons, if_pos rfl, dictFind?_cons, if_pos rfl]
      · rw [dictFind?_cons, if_neg hp] at h
        rw [dictSet, List.map_cons, if_neg hp, dictFind?_cons, if_neg hp]
        exact ih h

theorem dictFind?_dictInsert_self {α β : Type} [DecidableEq α]
    (l : List (α × β)) (k : α) (v : β) :
    dictFind? (dictInsert l k v) k = some v := by
  rw [dictInsert]
  by_cases h : (dictFind? l k).isSome
  · rw [if_pos h]
    exact dictFind?_dictSet_self l k v h
  · rw [if_neg h, dictFind?_append]
    rw [Option.not_isSome_iff_eq_none] at h
    simp [h, dictFind?_cons]

theorem dictFind?_dictInsert_ne {α β : Type} [DecidableEq α]
    (l : List (α × β)) (k k' : α) (v : β) (h : k' ≠ k) :
    dictFind? (dictInsert l k v) k' = dictFind? l k' := by
  rw [dictInsert]
  by_cases hs : (dictFind? l k).isSome
  · rw [if_pos hs]
    exact dictFind?_dictSet_ne l k k' v h
  · rw [if_neg hs, dictFind?_append]
    cases hf : dictFind? l k' with
    | some v' => rfl
    | none =>
        show dictFind? [(k, v)] k' = none
        rw [dictFind?_cons, if_neg (fun he : k = k' => h he.symm)]
        rfl

theorem dictKeys_dictInsert_nodup {α β : Type} [DecidableEq α]
    {l : List (α × β)} (hnd : (dictKeys l).Nodup) (k : α) (v : β) :
    (dictKeys (dictInsert l k v)).Nodup := by
  rw [dictInsert]
  by_cases h : (dictFind? l k).isSome
  · rw [if_pos h, dictKeys_dictSet]
    exact hnd
  · rw [if_neg h]
    have hk : k ∉ dictKeys l := fun hm =>
      h ((dictFind?_isSome_iff_mem_keys l k).mpr hm)
    have hdisj : ∀ x : β, (k, x) ∉ l := fun x hx => hk (by
      simp only [dictKeys, List.mem_map]
      exact ⟨(k, x), hx, rfl⟩)
    simpa [dictKeys, List.nodup_append] using ⟨hnd, hdisj⟩

theorem mem_dictKeys_dictInsert {α β : Type} [DecidableEq α]
    (l : List (α × β)) (k k' : α) (v : β) :
    k' ∈ dictKeys (dictInsert l k v) ↔ k' = k ∨ k' ∈ dictKeys l := by
  rw [dictInsert]
  by_cases h : (dictFind? l k).isSome
  · rw [if_pos h, dictKeys_dictSet]
    constructor
    · exact fun hm => Or.inr hm
    · rintro (rfl | hm)
      · exact (dictFind?_isSome_iff_mem_keys l k').mp h
      · exact hm
  · rw [if_neg h]
    simp only [dictKeys, List.map_append, List.map_cons, List.map_nil,
      List.mem_append, List.mem_cons, List.not_mem_nil, or_false]
    tauto

/-! ## Tokenisation and stop words (`STOP_WORDS`, `re.findall`, `extract`) -/

/-- The stop-word set from the source (`STOP_WORDS`). -/
def STOP_WORDS : List String :=
  ["a","an","the","and","or","but","in","on","at","to","for","with","by","of",
   "is","was","were","am","are","be","been","being","have","has","had","do",
   "does","did","will","would","shall","should","may","might","must","can",
   "could","i","you","he","she","it","we","they","them","their","his","her",
   "its","our","your","my","mine","yours","ours","this","that","these","those",
   "from","as","if","then","else","when","where","why","how","all","any","both",
   "each","few","more","most","some","such","up","down","over","under","again",
   "further","off","out","into","onto","about","between","during","before",
   "after","above","below","through","while","against","nor","only","own",
   "same","too","very","also"]

/-- Maximal runs of alphabetic characters, accumulator-style: the list model
of `re.findall(r"[a-zA-Z]+", text)`. -/
def alphaRuns : List Char → List Char → List String
  | [], acc => if acc.isEmpty then [] else [String.mk acc.reverse]
  | c :: cs, acc =>
      if c.isAlpha then alphaRuns cs (c :: acc)
      else if acc.isEmpty then alphaRuns cs []
      else String.mk acc.reverse :: alphaRuns cs []

/-- `re.findall(r"[a-zA-Z]+", s.lower())`: lower-case the text, then take the
maximal alphabetic runs.  (`Char.isAlpha` is exactly `[a-zA-Z]`.) -/
def tokenize (s : String) : List String :=
  alphaRuns (s.data.map Char.toLower) []

/-- Tokenise and drop stop words — the shared extraction/query
normalisation (`[w for w in words if w not in STOP_WORDS]`). -/
def normalizeTokens (s : String) : List String :=
  (tokenize s).filter (fun w => decide (w ∉ STOP_WORDS))

/-- Python `str.strip()` (used on the extracted title): drop leading and
trailing whitespace. -/
def pyStrip (s : String) : String :=
  String.mk (((s.data.dropWhile Char.isWhitespace).reverse.dropWhile Char.isWhitespace).reverse)

/-- `href.endswith(".html")`. -/
def hasHtmlSuffix (s : String) : Bool :=
  List.isPrefixOf (".html".data.reverse) s.data.reverse

/-! ## Trie (`TrieNode`/`Trie`, the term-lookup structure) -/

/-- The prefix tree: each node holds an optional posting-list position
(`occurrence_index`) and a dict of child nodes keyed by character. -/
inductive Trie where
  | node (occ : Option Nat) (children : List (Char × Trie))

/-- A fresh trie: a root with no children (`Trie.__init__`). -/
def Trie.empty : Trie := .node none []

/-- `Trie.insert(word, occ_idx)`: walk the word, creating missing children,
and set the final node's occurrence index. -/
def Trie.insertAux (t : Trie) (w : List Char) (i : Nat) : Trie :=
  match t, w with
  | .node _ cs, [] => .node (some i) cs
  | .node o cs, c :: w' =>
      match dictFind? cs c with
      | some child => .node o (dictSet cs c (child.insertAux w' i))
      | none => .node o (cs ++ [(c, Trie.empty.insertAux w' i)])

/-- `Trie.search(word)`: walk the word; `none` when a child is missing,
otherwise the final node's occurrence index. -/
def Trie.searchAux (t : Trie) (w : List Char) : Option Nat :=
  match t, w with
  | .node o _, [] => o
  | .node _ cs, c :: w' =>
      match dictFind? cs c with
      | some child => child.searchAux w'
      | none => none

/-- `trie.insert(word, idx)` on a Python string. -/
def Trie.insertWord (t : Trie) (s : String) (i : Nat) : Trie := t.insertAux s.data i

/-- `trie.search(word)` on a Python string. -/
def Trie.searchWord (t : Trie) (s : String) : Option Nat := t.searchAux s.data


theorem Trie.searchAux_empty (w : List Char) : Trie.empty.searchAux w = none := by
  cases w with
  | nil => rfl
  | cons c w' => rfl

theorem Trie.insertAux_cons (o : Option Nat) (cs : List (Char × Trie)) (c : Char)
    (w : List Char) (i : Nat) :
    (Trie.node o cs).insertAux (c :: w) i =
      match dictFind? cs c with
      | some child => Trie.node o (dictSet cs c (child.insertAux w i))
      | none => Trie.node o (cs ++ [(c, Trie.empty.insertAux w i)]) := rfl

theorem Trie.searchAux_cons (o : Option Nat) (cs : List (Char × Trie)) (c : Char)
    (w : List Char) :
    (Trie.node o cs).searchAux (c :: w) =
      match dictFind? cs c with
      | some child => child.searchAux w
      | none => none := rfl

theorem Trie.searchAux_insertAux_self (t : Trie) (w : List Char) (i : Nat) :
    (t.insertAux w i).searchAux w = some i := by
  induction w generalizing t with
  | nil => cases t with | node o cs => rfl
  | cons c w' ih =>
      cases t with
      | node o cs =>
          cases hf : dictFind? cs c with
          | some child =>
              have hs : (dictFind? cs c).isSome := by simp [hf]
              simp only [Trie.insertAux_cons, hf, Trie.searchAux_cons,
                dictFind?_dictSet_self cs c _ hs]
              exact ih child
          | none =>
              simp only [Trie.insertAux_cons, hf, Trie.searchAux_cons,
                dictFind?_append, dictFind?_cons, dictFind?_nil, if_pos rfl, if_true]
              exact ih Trie.empty

theorem Trie.searchAux_insertAux_ne (t : Trie) (w w' : List Char) (i : Nat)
    (h : w ≠ w') : (t.insertAux w i).searchAux w' = t.searchAux w' := by
  induction w generalizing t w' with
  | nil =>
      cases t with
      | node o cs =>
          cases w' with
          | nil => exact absurd rfl h
          | cons c' rest => rfl
  | cons c w0 ih =>
      cases t with
      | node o cs =>
          cases w' with
          | nil =>
              cases hf : dictFind? cs c with
              | some child => simp only [Trie.insertAux_cons, hf]; rfl
              | none => simp only [Trie.insertAux_cons, hf]; rfl
          | cons c' rest =>
              by_cases hc : c = c'
              · subst hc
                have hw : w0 ≠ rest := fun he => h (by rw [he])
                cases hf : dictFind? cs c with
                | some child =>
                    have hs : (dictFind? cs c).isSome := by simp [hf]
                    simp only [Trie.insertAux_cons, hf, Trie.searchAux_cons,
                      dictFind?_dictSet_self cs c _ hs]
                    rw [ih child rest hw]
                | none =>
                    simp only [Trie.insertAux_cons, hf, Trie.searchAux_cons,
                      dictFind?_append, dictFind?_cons, dictFind?_nil, if_pos rfl, if_true]
                    rw [ih Trie.empty rest hw]
                    exact Trie.searchAux_empty rest
              · cases hf : dictFind? cs c with
                | some child =>
                    simp only [Trie.insertAux_cons, hf, Trie.searchAux_cons,
                      dictFind?_dictSet_ne cs c c' _ (fun he => hc he.symm)]
                | none =>
                    simp only [Trie.insertAux_cons, hf, Trie.searchAux_cons,
                      dictFind?_append, dictFind?_cons, dictFind?_nil,
                      if_neg hc]
                    cases hcc : dictFind? cs c' with
                    | some ch => rfl
                    | none => rfl

/-- Insert all bindings of `word_to_index` into a trie (the final step of
`build_index`); looking up any word then agrees with the dict. -/
theorem Trie.searchWord_foldl_insertWord (t0 : Trie) (l : List (String × Nat))
    (hnd : (dictKeys l).Nodup) (w : String) :
    (l.foldl (fun t wi => t.insertWord wi.1 wi.2) t0).searchWord w =
      match dictFind? l w with
      | some i => some i
      | none => t0.searchWord w := by
  induction l generalizing t0 with
  | nil => rfl
  | cons p rest ih =>
      simp only [dictKeys, List.map_cons, List.nodup_cons] at hnd
      rw [List.foldl_cons, ih _ hnd.2]
      by_cases hw : p.1 = w
      · subst hw
        have hnone : dictFind? rest p.1 = none :=
          dictFind?_eq_none_of_not_mem_keys (by
            intro hm
            exact hnd.1 (by simpa [dictKeys] using hm))
        rw [hnone, dictFind?_cons, if_pos rfl]
        exact Trie.searchAux_insertAux_self t0 p.1.data p.2
      · rw [dictFind?_cons, if_neg hw]
        cases hr : dictFind? rest w with
        | some i => rfl
        | none =>
            show (t0.insertWord p.1 p.2).searchWord w = t0.searchWord w
            exact Trie.searchAux_insertAux_ne t0 p.1.data w.data p.2
              (fun hd => hw (String.ext hd))

/-! ## The web of documents and the crawler (`WebCrawler`) -/

/-- What the external collaborators (BeautifulSoup after script/style
removal) hand the crawler for one readable file: the optional `<title>`
string, the visible text, and the `href` values of its anchors. -/
structure Raw where
  titleTag : Option String
  text : String
  hrefs : List String

/-- One crawled page as stored in `self.pages[file]`: its title and its
normalised word sequence. -/
structure Page where
  title : String
  words : List String
deriving DecidableEq

/-- The closed document collection: the directory listing
(`os.listdir(self.dir)`) and the fetch-plus-parse collaborator; `none`
models an unreadable file (the bare `except` path). -/
structure Web where
  listing : List String
  fetch : String → Option Raw

/-- `WebCrawler.extract`: title (with `.strip()`, falling back to the file
name), the normalised visible-text tokens, and the hrefs that end in
`.html`. -/
def extract (raw : Raw) (filename : String) : Page × List String :=
  let title := match raw.titleTag with
    | some t => pyStrip t
    | none => filename
  let words := normalizeTokens raw.text
  let linkList := raw.hrefs.filter (fun h => hasHtmlSuffix h)
  (⟨title, words⟩, linkList)

/-- `all_files = [f for f in os.listdir(self.dir) if f.endswith(".html")]`. -/
def allFiles (W : Web) : List String := W.listing.filter (fun f => hasHtmlSuffix f)

/-- The outgoing `.html` links of a file (empty for unreadable files). -/
def linksOf (W : Web) (f : String) : List String :=
  match W.fetch f with
  | some raw => (extract raw f).2
  | none => []

/-- The page record of a file (dummy for unreadable files, which are never
recorded). -/
def pageOf (W : Web) (f : String) : Page :=
  match W.fetch f with
  | some raw => (extract raw f).1
  | none => ⟨f, []⟩

/-- The crawler's two outputs: `self.pages` (file ↦ title/words, in visit
order) and `self.links` (file ↦ its outgoing link list; a `defaultdict`
entry exists only for files with at least one recorded link). -/
structure CrawlResult where
  pages : List (String × Page)
  links : List (String × List String)
deriving DecidableEq

/-- The body of `WebCrawler.crawl`'s `while queue:` loop, fuel-indexed.
Dequeue; skip if visited; mark visited; on fetch failure continue; record
the page; record its outgoing links; enqueue unvisited links that are
members of `all_files`. -/
def crawlLoop (W : Web) : Nat → List String → List String → CrawlResult → CrawlResult
  | 0, _, _, st => st
  | _ + 1, [], _, st => st
  | fuel + 1, file :: queue, visited, st =>
      if file ∈ visited then
        crawlLoop W fuel queue visited st
      else
        match W.fetch file with
        | none => crawlLoop W fuel queue (file :: visited) st
        | some raw =>
            let pr := extract raw file
            let st' : CrawlResult :=
              { pages := st.pages ++ [(file, pr.1)],
                links := if pr.2.isEmpty then st.links else st.links ++ [(file, pr.2)] }
            let enq := pr.2.filter
              (fun l => decide (l ∉ file :: visited) && decide (l ∈ allFiles W))
            crawlLoop W fuel (queue ++ enq) (file :: visited) st'

/-- Enough fuel for the loop: one unit per initial queue entry plus one per
possible link enqueue (each file's links are enqueued at most once). -/
def crawlFuel (W : Web) : Nat :=
  (allFiles W).length + ((allFiles W).map (fun f => (linksOf W f).length)).sum + 1

/-- `WebCrawler.crawl()`: seed the queue with every enumerated file and run
the loop to completion. -/
def crawl (W : Web) : CrawlResult :=
  crawlLoop W (crawlFuel W) (allFiles W) [] ⟨[], []⟩

/-! ### Sufficiency of the fuel: the queue drains -/

/-- Loop measure: pending queue entries plus the links of files not yet
visited (each unvisited file can enqueue at most its own links). -/
def crawlMeasure (W : Web) (queue visited : List String) : Nat :=
  queue.length +
    Finset.sum ((allFiles W).toFinset.filter (fun f => f ∉ visited))
      (fun f => (linksOf W f).length)

theorem filter_notMem_cons_eq_erase (s : Finset String) (file : String)
    (visited : List String) :
    s.filter (fun f => f ∉ (file :: visited)) =
      (s.filter (fun f => f ∉ visited)).erase file := by
  ext x
  simp only [Finset.mem_filter, Finset.mem_erase, List.mem_cons]
  tauto

theorem sum_filter_split (W : Web) (visited : List String) {file : String}
    (hall : file ∈ allFiles W) (hnv : file ∉ visited) :
    Finset.sum ((allFiles W).toFinset.filter (fun f => f ∉ visited))
        (fun f => (linksOf W f).length) =
      Finset.sum ((allFiles W).toFinset.filter (fun f => f ∉ (file :: visited)))
        (fun f => (linksOf W f).length) + (linksOf W file).length := by
  rw [filter_notMem_cons_eq_erase]
  exact (Finset.sum_erase_add _ _
    (Finset.mem_filter.mpr ⟨List.mem_toFinset.mpr hall, hnv⟩)).symm

theorem toFinset_sum_le_map_sum (l : List String) (g : String → Nat) :
    Finset.sum l.toFinset g ≤ (l.map g).sum := by
  induction l with
  | nil => simp
  | cons a l ih =>
      rw [List.toFinset_cons, List.map_cons, List.sum_cons]
      by_cases h : a ∈ l.toFinset
      · rw [Finset.insert_eq_self.mpr h]
        exact le_trans ih (Nat.le_add_left _ _)
      · rw [Finset.sum_insert h]
        exact Nat.add_le_add_left ih _

theorem crawlMeasure_init_lt_fuel (W : Web) :
    crawlMeasure W (allFiles W) [] < crawlFuel W := by
  have hfilter : ((allFiles W).toFinset.filter (fun f => f ∉ ([] : List String)))
      = (allFiles W).toFinset := by
    apply Finset.filter_true_of_mem
    intro x _
    exact List.not_mem_nil x
  rw [crawlMeasure, hfilter, crawlFuel]
  have := toFinset_sum_le_map_sum (allFiles W) (fun f => (linksOf W f).length)
  omega

/-- `(W.fetch f).isSome`: the file is readable. -/
def fetchedB (W : Web) (f : String) : Bool := (W.fetch f).isSome

/-- The file is readable and has at least one recorded outgoing link (the
`defaultdict` materialises a `links` entry exactly then). -/
def hasLinksB (W : Web) (f : String) : Bool := fetchedB W f && !(linksOf W f).isEmpty

theorem crawlMeasure_cons (W : Web) (f : String) (q v : List String) :
    crawlMeasure W (f :: q) v = crawlMeasure W q v + 1 := by
  simp only [crawlMeasure, List.length_cons]
  omega

/-- Main loop invariant: with enough fuel, the loop visits exactly the
still-unvisited enumerated files (in some order `delta`), appending the
corresponding page and link records. -/
theorem crawlLoop_spec (W : Web) :
    ∀ (fuel : Nat) (queue visited : List String) (st : CrawlResult),
    (∀ f ∈ queue, f ∈ allFiles W) →
    (∀ f ∈ allFiles W, f ∈ visited ∨ f ∈ queue) →
    crawlMeasure W queue visited < fuel →
    ∃ delta : List String,
      delta.Nodup ∧
      (∀ f ∈ delta, f ∉ visited) ∧
      (∀ f, f ∈ delta ∨ f ∈ visited ↔ f ∈ allFiles W ∨ f ∈ visited) ∧
      (crawlLoop W fuel queue visited st).pages =
        st.pages ++ (delta.filter (fun f => fetchedB W f)).map (fun f => (f, pageOf W f)) ∧
      (crawlLoop W fuel queue visited st).links =
        st.links ++ (delta.filter (fun f => hasLinksB W f)).map (fun f => (f, linksOf W f)) := by
  intro fuel
  induction fuel with
  | zero =>
      intro queue visited st _ _ hm
      exact absurd hm (Nat.not_lt_zero _)
  | succ fuel ih =>
      intro queue visited st h1 h4 hm
      cases queue with
      | nil =>
          refine ⟨[], List.nodup_nil, fun f hf => absurd hf (List.not_mem_nil f), ?_, by simp [crawlLoop], by simp [crawlLoop]⟩
          intro f
          constructor
          · rintro (hf | hf)
            · exact absurd hf (List.not_mem_nil f)
            · exact Or.inr hf
          · rintro (hf | hf)
            · rcases h4 f hf with h | h
              · exact Or.inr h
              · exact absurd h (List.not_mem_nil f)
            · exact Or.inr hf
      | cons file queue' =>
          by_cases hv : file ∈ visited
          · -- already visited: skip
            have heq : crawlLoop W (fuel + 1) (file :: queue') visited st =
                crawlLoop W fuel queue' visited st := by
              rw [crawlLoop, if_pos hv]
            have h4' : ∀ f ∈ allFiles W, f ∈ visited ∨ f ∈ queue' := by
              intro f hf
              rcases h4 f hf with h | h
              · exact Or.inl h
              · rcases List.mem_cons.mp h with he | h
                · exact Or.inl (he ▸ hv)
                · exact Or.inr h
            have hm' : crawlMeasure W queue' visited < fuel := by
              rw [crawlMeasure_cons] at hm
              omega
            obtain ⟨delta, hnd, hdv, hiff, hp, hl⟩ :=
              ih queue' visited st (fun f hf => h1 f (List.mem_cons_of_mem _ hf)) h4' hm'
            exact ⟨delta, hnd, hdv, hiff, heq ▸ hp, heq ▸ hl⟩
          · have hfileAll : file ∈ allFiles W := h1 file (List.mem_cons_self file queue')
            cases hfetch : W.fetch file with
            | none =>
                have heq : crawlLoop W (fuel + 1) (file :: queue') visited st =
                    crawlLoop W fuel queue' (file :: visited) st := by
                  rw [crawlLoop, if_neg hv, hfetch]
                have h4' : ∀ f ∈ allFiles W, f ∈ (file :: visited) ∨ f ∈ queue' := by
                  intro f hf
                  rcases h4 f hf with h | h
                  · exact Or.inl (List.mem_cons_of_mem _ h)
                  · rcases List.mem_cons.mp h with he | h
                    · exact Or.inl (he ▸ List.mem_cons_self file visited)
                    · exact Or.inr h
                have hsplit := sum_filter_split W visited hfileAll hv
                have hm' : crawlMeasure W queue' (file :: visited) < fuel := by
                  simp only [crawlMeasure, List.length_cons] at hm ⊢
                  omega
                obtain ⟨delta', hnd', hdv', hiff', hp', hl'⟩ :=
                  ih queue' (file :: visited) st
                    (fun f hf => h1 f (List.mem_cons_of_mem _ hf)) h4' hm'
                have hfd : file ∉ delta' := fun hmem =>
                  (hdv' file hmem) (List.mem_cons_self file visited)
                refine ⟨file :: delta', List.nodup_cons.mpr ⟨hfd, hnd'⟩, ?_, ?_, ?_, ?_⟩
                · intro f hf
                  rcases List.mem_cons.mp hf with he | hmem
                  · exact he ▸ hv
                  · exact fun hfv => (hdv' f hmem) (List.mem_cons_of_mem _ hfv)
                · intro f
                  have h5 := hiff' f
                  simp only [List.mem_cons] at h5 ⊢
                  constructor
                  · rintro (hf | hf)
                    · rcases hf with he | hmem
                      · exact Or.inl (he ▸ hfileAll)
                      · rcases h5.mp (Or.inl hmem) with h | h
                        · exact Or.inl h
                        · rcases h with he | h
                          · exact Or.inl (he ▸ hfileAll)
                          · exact Or.inr h
                    · exact Or.inr hf
                  · rintro (hf | hf)
                    · rcases h5.mpr (Or.inl hf) with h | h
                      · exact Or.inl (Or.inr h)
                      · rcases h with he | h
                        · exact Or.inl (Or.inl he)
                        · exact Or.inr h
                    · exact Or.inr hf
                · rw [heq, hp']
                  have : fetchedB W file = false := by
                    simp [fetchedB, hfetch]
                  simp [List.filter_cons, this]
                · rw [heq, hl']
                  have : hasLinksB W file = false := by
                    simp [hasLinksB, fetchedB, hfetch]
                  simp [List.filter_cons, this]
            | some raw =>
                have heq : crawlLoop W (fuel + 1) (file :: queue') visited st =
                    crawlLoop W fuel
                      (queue' ++ (extract raw file).2.filter
                        (fun l => decide (l ∉ file :: visited) && decide (l ∈ allFiles W)))
                      (file :: visited)
                      { pages := st.pages ++ [(file, (extract raw file).1)],
                        links := if (extract raw file).2.isEmpty then st.links
                          else st.links ++ [(file, (extract raw file).2)] } := by
                  rw [crawlLoop, if_neg hv, hfetch]
                have hlinksOf : linksOf W file = (extract raw file).2 := by
                  simp [linksOf, hfetch]
                have hpageOf : pageOf W file = (extract raw file).1 := by
                  simp [pageOf, hfetch]
                have h1' : ∀ f ∈ queue' ++ (extract raw file).2.filter
                    (fun l => decide (l ∉ file :: visited) && decide (l ∈ allFiles W)),
                    f ∈ allFiles W := by
                  intro f hf
                  rcases List.mem_append.mp hf with h | h
                  · exact h1 f (List.mem_cons_of_mem _ h)
                  · have := List.mem_filter.mp h
                    simp only [Bool.and_eq_true, decide_eq_true_eq] at this
                    exact this.2.2
                have h4' : ∀ f ∈ allFiles W, f ∈ (file :: visited) ∨
                    f ∈ queue' ++ (extract raw file).2.filter
                      (fun l => decide (l ∉ file :: visited) && decide (l ∈ allFiles W)) := by
                  intro f hf
                  rcases h4 f hf with h | h
                  · exact Or.inl (List.mem_cons_of_mem _ h)
                  · rcases List.mem_cons.mp h with he | h
                    · exact Or.inl (he ▸ List.mem_cons_self file visited)
                    · exact Or.inr (List.mem_append_left _ h)
                have hsplit := sum_filter_split W visited hfileAll hv
                have henq : ((extract raw file).2.filter
                    (fun l => decide (l ∉ file :: visited) && decide (l ∈ allFiles W))).length ≤
                    (extract raw file).2.length := List.length_filter_le _ _
                have hm' : crawlMeasure W
                    (queue' ++ (extract raw file).2.filter
                      (fun l => decide (l ∉ file :: visited) && decide (l ∈ allFiles W)))
                    (file :: visited) < fuel := by
                  rw [hlinksOf] at hsplit
                  simp only [crawlMeasure, List.length_cons, List.length_append] at hm ⊢
                  omega
                obtain ⟨delta', hnd', hdv', hiff', hp', hl'⟩ :=
                  ih _ (file :: visited) _ h1' h4' hm'
                have hfd : file ∉ delta' := fun hmem =>
                  (hdv' file hmem) (List.mem_cons_self file visited)
                refine ⟨file :: delta', List.nodup_cons.mpr ⟨hfd, hnd'⟩, ?_, ?_, ?_, ?_⟩
                · intro f hf
                  rcases List.mem_cons.mp hf with he | hmem
                  · exact he ▸ hv
                  · exact fun hfv => (hdv' f hmem) (List.mem_cons_of_mem _ hfv)
                · intro f
                  have h5 := hiff' f
                  simp only [List.mem_cons] at h5 ⊢
                  constructor
                  · rintro (hf | hf)
                    · rcases hf with he | hmem
                      · exact Or.inl (he ▸ hfileAll)
                      · rcases h5.mp (Or.inl hmem) with h | h
                        · exact Or.inl h
                        · rcases h with he | h
                          · exact Or.inl (he ▸ hfileAll)
                          · exact Or.inr h
                    · exact Or.inr hf
                  · rintro (hf | hf)
                    · rcases h5.mpr (Or.inl hf) with h | h
                      · exact Or.inl (Or.inr h)
                      · rcases h with he | h
                        · exact Or.inl (Or.inl he)
                        · exact Or.inr h
                    · exact Or.inr hf
                · rw [heq, hp']
                  have : fetchedB W file = true := by
                    simp [fetchedB, hfetch]
                  simp [List.filter_cons, this, hpageOf]
                · rw [heq, hl']
                  by_cases hemp : (extract raw file).2.isEmpty
                  · have hcond : hasLinksB W file = false := by
                      simp [hasLinksB, fetchedB, hfetch, hlinksOf, hemp]
                    simp [List.filter_cons, hcond, hemp]
                  · have hcond : hasLinksB W file = true := by
                      simp only [hasLinksB, fetchedB, hfetch, Option.isSome_some,
                        hlinksOf, Bool.true_and]
                      simp [List.isEmpty_iff] at hemp ⊢
                      exact hemp
                    simp [List.filter_cons, hcond, hemp, hlinksOf]

/-- The crawl visits each enumerated file exactly once (in some order) and
records exactly the readable ones. -/
theorem crawl_spec (W : Web) :
    ∃ order : List String, order.Nodup ∧ (∀ f, f ∈ order ↔ f ∈ allFiles W) ∧
      (crawl W).pages =
        (order.filter (fun f => fetchedB W f)).map (fun f => (f, pageOf W f)) ∧
      (crawl W).links =
        (order.filter (fun f => hasLinksB W f)).map (fun f => (f, linksOf W f)) := by
  obtain ⟨delta, hnd, _, hiff, hp, hl⟩ :=
    crawlLoop_spec W (crawlFuel W) (allFiles W) [] ⟨[], []⟩
      (fun _ hf => hf) (fun _ hf => Or.inr hf) (crawlMeasure_init_lt_fuel W)
  refine ⟨delta, hnd, ?_, ?_, ?_⟩
  · intro f
    have h5 := hiff f
    simp only [List.not_mem_nil, or_false] at h5
    exact h5
  · rw [crawl]
    simpa using hp
  · rw [crawl]
    simpa using hl

theorem dictKeys_map_pair {α β : Type} (l : List α) (g : α → β) :
    dictKeys (l.map (fun x => (x, g x))) = l := by
  induction l with
  | nil => rfl
  | cons a l ih => simp only [dictKeys, List.map_cons] at ih ⊢; rw [ih]

theorem crawl_pages_keys_nodup (W : Web) : (dictKeys (crawl W).pages).Nodup := by
  obtain ⟨order, hnd, _, hp, _⟩ := crawl_spec W
  rw [hp, dictKeys_map_pair]
  exact hnd.filter _

theorem mem_crawl_pages_iff (W : Web) (f : String) (pg : Page) :
    (f, pg) ∈ (crawl W).pages ↔
      f ∈ allFiles W ∧ (W.fetch f).isSome ∧ pg = pageOf W f := by
  obtain ⟨order, _, hmem, hp, _⟩ := crawl_spec W
  rw [hp]
  constructor
  · intro h
    rcases List.mem_map.mp h with ⟨x, hx, hpair⟩
    have hxf : x = f := congrArg Prod.fst hpair
    subst hxf
    have h2 := List.mem_filter.mp hx
    refine ⟨(hmem x).mp h2.1, ?_, (congrArg Prod.snd hpair).symm⟩
    have := h2.2
    simpa [fetchedB] using this
  · rintro ⟨hall, hsome, rfl⟩
    exact List.mem_map.mpr ⟨f,
      List.mem_filter.mpr ⟨(hmem f).mpr hall, by simpa [fetchedB] using hsome⟩, rfl⟩

theorem dictFind?_crawl_pages (W : Web) (f : String) :
    dictFind? (crawl W).pages f =
      if f ∈ allFiles W ∧ (W.fetch f).isSome then some (pageOf W f) else none := by
  by_cases h : f ∈ allFiles W ∧ (W.fetch f).isSome
  · rw [if_pos h]
    exact mem_dictFind?_of_nodup (crawl_pages_keys_nodup W)
      ((mem_crawl_pages_iff W f (pageOf W f)).mpr ⟨h.1, h.2, rfl⟩)
  · rw [if_neg h]
    apply dictFind?_eq_none_of_not_mem_keys
    intro hk
    rcases List.mem_map.mp hk with ⟨p, hp, hfst⟩
    rcases p with ⟨f', pg⟩
    cases hfst
    exact h (by
      have := (mem_crawl_pages_iff W f' pg).mp hp
      exact ⟨this.1, this.2.1⟩)

/-! ## The index builder (`SearchEngine.build_index`) -/

/-- Distinct elements in order of first occurrence: the iteration order of
`Counter(words)` (Python dicts iterate in insertion order). -/
def uniqList {α : Type} [DecidableEq α] : List α → List α
  | [] => []
  | a :: l => a :: (uniqList l).filter (fun x => decide (x ≠ a))

/-- `Counter(words).items()`: each distinct word with its occurrence count,
in first-occurrence order. -/
def counterItems {α : Type} [DecidableEq α] (ws : List α) : List (α × Nat) :=
  (uniqList ws).map (fun w => (w, ws.count w))

theorem mem_uniqList {α : Type} [DecidableEq α] (l : List α) (a : α) :
    a ∈ uniqList l ↔ a ∈ l := by
  induction l with
  | nil => simp [uniqList]
  | cons b l ih =>
      simp only [uniqList, List.mem_cons, List.mem_filter, decide_eq_true_eq]
      constructor
      · rintro (rfl | ⟨h, _⟩)
        · exact Or.inl rfl
        · exact Or.inr (ih.mp h)
      · rintro (rfl | h)
        · exact Or.inl rfl
        · by_cases he : a = b
          · exact Or.inl he
          · exact Or.inr ⟨ih.mpr h, he⟩

theorem nodup_uniqList {α : Type} [DecidableEq α] (l : List α) : (uniqList l).Nodup := by
  induction l with
  | nil => exact List.nodup_nil
  | cons b l ih =>
      refine List.nodup_cons.mpr ⟨?_, ih.filter _⟩
      intro hmem
      have h2 := (List.mem_filter.mp hmem).2
      simp only [decide_eq_true_eq] at h2
      exact h2 rfl

theorem dictKeys_counterItems {α : Type} [DecidableEq α] (ws : List α) :
    dictKeys (counterItems ws) = uniqList ws := dictKeys_map_pair _ _

theorem dictFind?_counterItems {α : Type} [DecidableEq α] (ws : List α) (w : α) :
    dictFind? (counterItems ws) w =
      if 1 ≤ ws.count w then some (ws.count w) else none := by
  by_cases h : w ∈ ws
  · rw [if_pos (show 1 ≤ ws.count w from List.count_pos_iff.mpr h)]
    exact mem_dictFind?_of_nodup
      (by rw [dictKeys_counterItems]; exact nodup_uniqList ws)
      (List.mem_map.mpr ⟨w, (mem_uniqList ws w).mpr h, rfl⟩)
  · have hc : ws.count w = 0 := List.count_eq_zero.mpr h
    rw [if_neg (by omega)]
    apply dictFind?_eq_none_of_not_mem_keys
    rw [dictKeys_counterItems]
    exact fun hm => h ((mem_uniqList ws w).mp hm)

theorem sum_map_filter_ne {α : Type} [DecidableEq α] (l : List α) (hnd : l.Nodup)
    (f : α → Nat) (a : α) :
    (l.map f).sum =
      ((l.filter (fun x => decide (x ≠ a))).map f).sum + (if a ∈ l then f a else 0) := by
  induction l with
  | nil => simp
  | cons b l ih =>
      have hnd' := List.nodup_cons.mp hnd
      by_cases he : b = a
      · subst he
        rw [if_pos (List.mem_cons_self b l)]
        have hna : b ∉ l := hnd'.1
        have := ih hnd'.2
        rw [if_neg hna] at this
        simp only [List.map_cons, List.sum_cons, List.filter_cons]
        rw [if_neg (by simp)]
        omega
      · simp only [List.map_cons, List.sum_cons, List.filter_cons]
        rw [if_pos (by simp [he]), List.map_cons, List.sum_cons]
        have := ih hnd'.2
        have hmem : a ∈ b :: l ↔ a ∈ l := by
          simp only [List.mem_cons]
          constructor
          · rintro (rfl | h)
            · exact absurd rfl he
            · exact h
          · exact Or.inr
        by_cases ha : a ∈ l
        · rw [if_pos ha] at this
          rw [if_pos (hmem.mpr ha)]
          omega
        · rw [if_neg ha] at this
          rw [if_neg (fun hh => ha (hmem.mp hh))]
          omega

/-- `sum(word_freq.values())` equals the length of the word sequence: the
document length is the total term count. -/
theorem sum_counterItems {α : Type} [DecidableEq α] (ws : List α) :
    ((counterItems ws).map (fun p => p.2)).sum = ws.length := by
  induction ws with
  | nil => rfl
  | cons a ws ih =>
      have hexp : ((counterItems (a :: ws)).map (fun p => p.2)).sum
          = (a :: ws).count a
            + (((uniqList ws).filter (fun x => decide (x ≠ a))).map
                (fun w => (a :: ws).count w)).sum := by
        simp [counterItems, uniqList, List.map_map, Function.comp_def]
      have hcongr : (((uniqList ws).filter (fun x => decide (x ≠ a))).map
            (fun w => (a :: ws).count w)).sum
          = (((uniqList ws).filter (fun x => decide (x ≠ a))).map
            (fun w => ws.count w)).sum := by
        congr 1
        apply List.map_congr_left
        intro x hx
        have hxa : x ≠ a := by simpa using (List.mem_filter.mp hx).2
        have hax : ¬ (a = x) := fun he => hxa he.symm
        simp [List.count_cons, hax]
      have hcount : (a :: ws).count a = ws.count a + 1 := by
        simp [List.count_cons]
      have hsum : ((uniqList ws).map (fun w => ws.count w)).sum = ws.length := by
        simpa [counterItems, List.map_map, Function.comp_def] using ih
      have hsplit := sum_map_filter_ne (uniqList ws) (nodup_uniqList ws)
        (fun w => ws.count w) a
      rw [hexp, hcongr, hcount, List.length_cons]
      by_cases ha : a ∈ ws
      · rw [if_pos ((mem_uniqList ws a).mpr ha)] at hsplit
        omega
      · rw [if_neg (fun hm => ha ((mem_uniqList ws a).mp hm))] at hsplit
        have hz : ws.count a = 0 := List.count_eq_zero.mpr ha
        omega

/-- The three structures `build_index` fills while scanning documents. -/
structure IndexState where
  inverted_index : List (List (String × Nat))
  word_to_index : List (String × Nat)
  document_lengths : List (String × Nat)
deriving DecidableEq

/-- The inner loop of `build_index`: `for word, freq in word_freq.items()`.
A new word is assigned the next position (`len(self.inverted_index)`) and an
empty posting list is appended; then `self.inverted_index[idx][file] = freq`. -/
def indexWords (file : String) : IndexState → List (String × Nat) → IndexState
  | st, [] => st
  | st, (word, freq) :: rest =>
      let st1 : IndexState :=
        if (dictFind? st.word_to_index word).isSome then st
        else
          { st with
            word_to_index := dictInsert st.word_to_index word st.inverted_index.length,
            inverted_index := st.inverted_index ++ [[]] }
      let idx := (dictFind? st1.word_to_index word).getD 0
      let st2 : IndexState :=
        { st1 with
          inverted_index :=
            st1.inverted_index.set idx
              (dictInsert (st1.inverted_index.getD idx []) file freq) }
      indexWords file st2 rest

/-- The outer loop of `build_index`: per crawled page, record the document
length (`sum(word_freq.values())`) and index its counted words. -/
def buildDocs : IndexState → List (String × Page) → IndexState
  | st, [] => st
  | st, (file, page) :: rest =>
      let wf := counterItems page.words
      let st1 : IndexState :=
        { st with
          document_lengths :=
            dictInsert st.document_lengths file ((wf.map (fun p => p.2)).sum) }
      buildDocs (indexWords file st1 wf) rest

/-- `self.incoming_links[dest] += 1` on a `defaultdict(int)`: increment in
place, materialising the entry at 1 if absent. -/
def ddIncr (l : List (String × Nat)) (k : String) : List (String × Nat) :=
  match dictFind? l k with
  | some v => dictSet l k (v + 1)
  | none => l ++ [(k, 1)]

/-- `for src, outs in self.crawler.links.items(): for dest in outs: ...`. -/
def buildIncoming (links : List (String × List String)) : List (String × Nat) :=
  links.foldl (fun acc pr => pr.2.foldl (fun acc2 dest => ddIncr acc2 dest) acc) []

/-- The `SearchEngine` object after `build_index()`: ranking mode, the
crawler's `pages` and `links`, the trie, and the four index structures. -/
structure Engine where
  ranking_mode : String
  pages : List (String × Page)
  linksMap : List (String × List String)
  trie : Trie
  inverted_index : List (List (String × Nat))
  word_to_index : List (String × Nat)
  document_lengths : List (String × Nat)
  incoming_links : List (String × Nat)

/-- The index structures produced by the document scan of `build_index`. -/
def buildState (W : Web) : IndexState := buildDocs ⟨[], [], []⟩ (crawl W).pages

/-- `SearchEngine(directory, ranking_mode)` followed by `build_index()`. -/
def build (mode : String) (W : Web) : Engine :=
  let cr := crawl W
  let ist := buildDocs ⟨[], [], []⟩ cr.pages
  { ranking_mode := mode
    pages := cr.pages
    linksMap := cr.links
    trie := ist.word_to_index.foldl (fun t wi => t.insertWord wi.1 wi.2) Trie.empty
    inverted_index := ist.inverted_index
    word_to_index := ist.word_to_index
    document_lengths := ist.document_lengths
    incoming_links := buildIncoming cr.links }

/-- The raw frequency of `w` in document `d` according to the crawled
pages (0 if `d` was not crawled). -/
def freqIn (pages : List (String × Page)) (w d : String) : Nat :=
  match dictFind? pages d with
  | some pg => pg.words.count w
  | none => 0

/-- Invariant of the inner `build_index` loop while document `file` is being
indexed: the already-scanned documents `done` are fully recorded, and `g`
gives the partial posting column of `file` (the words of `file` indexed so
far). -/
structure PartialInv (done : List (String × Page)) (file : String)
    (g : String → Option Nat) (st : IndexState) : Prop where
  w2iNodup : (dictKeys st.word_to_index).Nodup
  posValid : ∀ w i, dictFind? st.word_to_index w = some i → i < st.inverted_index.length
  posInj : ∀ w w' i, dictFind? st.word_to_index w = some i →
      dictFind? st.word_to_index w' = some i → w = w'
  postingNodup : ∀ w i, dictFind? st.word_to_index w = some i →
      (dictKeys (st.inverted_index.getD i [])).Nodup
  postingFind : ∀ w i, dictFind? st.word_to_index w = some i → ∀ d,
      dictFind? (st.inverted_index.getD i []) d =
        if d = file then g w
        else if 1 ≤ freqIn done w d then some (freqIn done w d) else none
  unknownAbsent : ∀ w, dictFind? st.word_to_index w = none →
      (∀ d, freqIn done w d = 0) ∧ g w = none

theorem PartialInv.congrG {done : List (String × Page)} {file : String}
    {g g' : String → Option Nat} {st : IndexState} (h : ∀ w, g w = g' w)
    (hp : PartialInv done file g st) : PartialInv done file g' st := by
  refine ⟨hp.w2iNodup, hp.posValid, hp.posInj, hp.postingNodup, ?_, ?_⟩
  · intro w i hi d
    rw [hp.postingFind w i hi d, ← h w]
  · intro w hw
    exact ⟨(hp.unknownAbsent w hw).1, (h w) ▸ (hp.unknownAbsent w hw).2⟩

theorem indexWords_cons_known (file : String) (st : IndexState) (word : String)
    (freq : Nat) (rest : List (String × Nat)) {i : Nat}
    (h : dictFind? st.word_to_index word = some i) :
    indexWords file st ((word, freq) :: rest) =
      indexWords file
        { st with
          inverted_index := st.inverted_index.set i
            (dictInsert (st.inverted_index.getD i []) file freq) } rest := by
  simp only [indexWords, h, Option.isSome_some, if_true, Option.getD_some]

theorem indexWords_cons_new (file : String) (st : IndexState) (word : String)
    (freq : Nat) (rest : List (String × Nat))
    (h : dictFind? st.word_to_index word = none) :
    indexWords file st ((word, freq) :: rest) =
      indexWords file
        { st with
          word_to_index := dictInsert st.word_to_index word st.inverted_index.length,
          inverted_index :=
            (st.inverted_index ++ [[]]).set st.inverted_index.length
              (dictInsert ((st.inverted_index ++ [[]]).getD st.inverted_index.length [])
                file freq) } rest := by
  simp only [indexWords, h, Option.isSome_none, Bool.false_eq_true, if_false,
    dictFind?_dictInsert_self, Option.getD_some]

theorem partialInv_step_known {done : List (String × Page)} {file : String}
    {g : String → Option Nat} {st : IndexState} {word : String} {freq : Nat} {i0 : Nat}
    (hknown : dictFind? st.word_to_index word = some i0)
    (hinv : PartialInv done file g st) :
    PartialInv done file (fun w => if w = word then some freq else g w)
      { st with
        inverted_index := st.inverted_index.set i0
          (dictInsert (st.inverted_index.getD i0 []) file freq) } := by
  have hi0lt : i0 < st.inverted_index.length := hinv.posValid word i0 hknown
  have hget_eq : (st.inverted_index.set i0
        (dictInsert (st.inverted_index.getD i0 []) file freq)).getD i0 [] =
      dictInsert (st.inverted_index.getD i0 []) file freq := by
    simp [List.getD_eq_getElem?_getD, List.getElem?_set, hi0lt]
  have hget_ne : ∀ i, i ≠ i0 →
      (st.inverted_index.set i0
        (dictInsert (st.inverted_index.getD i0 []) file freq)).getD i [] =
      st.inverted_index.getD i [] := by
    intro i hne
    simp [List.getD_eq_getElem?_getD, List.getElem?_set_ne (fun he => hne he.symm)]
  refine ⟨hinv.w2iNodup, ?_, hinv.posInj, ?_, ?_, ?_⟩
  · intro w i hi
    simpa [List.length_set] using hinv.posValid w i hi
  · intro w i hi
    by_cases hieq : i = i0
    · subst hieq
      rw [hget_eq]
      exact dictKeys_dictInsert_nodup (hinv.postingNodup word i hknown) file freq
    · rw [hget_ne i hieq]
      exact hinv.postingNodup w i hi
  · intro w i hi d
    by_cases hieq : i = i0
    · subst hieq
      have hww : w = word := hinv.posInj w word i hi hknown
      rw [hget_eq, hww]
      by_cases hd : d = file
      · subst hd
        rw [dictFind?_dictInsert_self, if_pos rfl, if_pos rfl]
      · rw [dictFind?_dictInsert_ne _ _ _ _ hd, hinv.postingFind word i hknown d,
          if_neg hd, if_neg hd]
    · have hww : w ≠ word := by
        intro he
        rw [he, hknown] at hi
        injection hi with hi2
        exact hieq hi2.symm
      rw [hget_ne i hieq, hinv.postingFind w i hi d]
      by_cases hd : d = file
      · rw [if_pos hd, if_pos hd, if_neg hww]
      · rw [if_neg hd, if_neg hd]
  · intro w hw
    have hold := hinv.unknownAbsent w hw
    have hww : w ≠ word := by
      intro he
      rw [he, hknown] at hw
      exact Option.noConfusion hw
    exact ⟨hold.1, by rw [if_neg hww]; exact hold.2⟩

theorem partialInv_step_new {done : List (String × Page)} {file : String}
    {g : String → Option Nat} {st : IndexState} {word : String} {freq : Nat}
    (hnone : dictFind? st.word_to_index word = none)
    (hinv : PartialInv done file g st) :
    PartialInv done file (fun w => if w = word then some freq else g w)
      { st with
        word_to_index := dictInsert st.word_to_index word st.inverted_index.length,
        inverted_index :=
          (st.inverted_index ++ [[]]).set st.inverted_index.length
            (dictInsert ((st.inverted_index ++ [[]]).getD st.inverted_index.length [])
              file freq) } := by
  have hLget : (st.inverted_index ++ [[]]).getD st.inverted_index.length [] =
      ([] : List (String × Nat)) := by
    simp [List.getD_eq_getElem?_getD, List.getElem?_concat_length]
  have hx : dictInsert ((st.inverted_index ++ [[]]).getD st.inverted_index.length [])
      file freq = [(file, freq)] := by
    rw [hLget]
    rfl
  have hlenapp : (st.inverted_index ++ [[]]).length = st.inverted_index.length + 1 := by
    simp
  have hset_eq : ((st.inverted_index ++ [[]]).set st.inverted_index.length
        (dictInsert ((st.inverted_index ++ [[]]).getD st.inverted_index.length [])
          file freq)).getD st.inverted_index.length [] = [(file, freq)] := by
    rw [hx]
    simp [List.getD_eq_getElem?_getD, List.getElem?_set, hlenapp]
  have hset_ne : ∀ i, i < st.inverted_index.length →
      ((st.inverted_index ++ [[]]).set st.inverted_index.length
        (dictInsert ((st.inverted_index ++ [[]]).getD st.inverted_index.length [])
          file freq)).getD i [] = st.inverted_index.getD i [] := by
    intro i hi
    rw [List.getD_eq_getElem?_getD,
      List.getElem?_set_ne (fun he : st.inverted_index.length = i => by omega),
      ← List.getD_eq_getElem?_getD]
    exact List.getD_append _ _ _ _ hi
  have hfind_word : dictFind? (dictInsert st.word_to_index word st.inverted_index.length)
      word = some st.inverted_index.length := dictFind?_dictInsert_self _ _ _
  have hfind_ne : ∀ w, w ≠ word →
      dictFind? (dictInsert st.word_to_index word st.inverted_index.length) w =
      dictFind? st.word_to_index w := fun w hw => dictFind?_dictInsert_ne _ _ _ _ hw
  have hlenset : ((st.inverted_index ++ [[]]).set st.inverted_index.length
      (dictInsert ((st.inverted_index ++ [[]]).getD st.inverted_index.length [])
        file freq)).length = st.inverted_index.length + 1 := by
    simp
  refine ⟨dictKeys_dictInsert_nodup hinv.w2iNodup word _, ?_, ?_, ?_, ?_, ?_⟩
  · intro w i hi
    rw [hlenset]
    by_cases hw : w = word
    · rw [hw, hfind_word] at hi
      injection hi with hi
      omega
    · rw [hfind_ne w hw] at hi
      have := hinv.posValid w i hi
      omega
  · intro w w' i hi hi'
    by_cases hw : w = word
    · rw [hw, hfind_word] at hi
      injection hi with hi
      by_cases hw' : w' = word
      · rw [hw, hw']
      · rw [hfind_ne w' hw'] at hi'
        have := hinv.posValid w' i hi'
        omega
    · rw [hfind_ne w hw] at hi
      by_cases hw' : w' = word
      · rw [hw', hfind_word] at hi'
        injection hi' with hi'
        have := hinv.posValid w i hi
        omega
      · rw [hfind_ne w' hw'] at hi'
        exact hinv.posInj w w' i hi hi'
  · intro w i hi
    by_cases hw : w = word
    · rw [hw, hfind_word] at hi
      injection hi with hi
      subst hi
      rw [hset_eq]
      exact List.nodup_singleton file
    · rw [hfind_ne w hw] at hi
      have hilt := hinv.posValid w i hi
      rw [hset_ne i hilt]
      exact hinv.postingNodup w i hi
  · intro w i hi d
    by_cases hw : w = word
    · rw [hw] at hi
      rw [hfind_word] at hi
      injection hi with hi
      subst hi
      rw [hw, hset_eq, dictFind?_cons]
      by_cases hd : d = file
      · rw [if_pos hd.symm, if_pos hd, if_pos rfl]
      · rw [if_neg (fun he => hd he.symm), if_neg hd, dictFind?_nil]
        have hzero := (hinv.unknownAbsent word hnone).1 d
        rw [hzero]
        rw [if_neg (by omega)]
    · rw [hfind_ne w hw] at hi
      have hilt := hinv.posValid w i hi
      rw [hset_ne i hilt, hinv.postingFind w i hi d]
      by_cases hd : d = file
      · rw [if_pos hd, if_pos hd, if_neg hw]
      · rw [if_neg hd, if_neg hd]
  · intro w hw
    have hww : w ≠ word := by
      intro he
      rw [he, hfind_word] at hw
      exact Option.noConfusion hw
    rw [hfind_ne w hww] at hw
    have hold := hinv.unknownAbsent w hw
    exact ⟨hold.1, by rw [if_neg hww]; exact hold.2⟩

/-- Running the inner loop over a duplicate-free item list extends the
partial posting column of `file` by exactly those items. -/
theorem indexWords_inv (file : String) (done : List (String × Page)) :
    ∀ (items : List (String × Nat)) (st : IndexState) (g : String → Option Nat),
    (dictKeys items).Nodup →
    PartialInv done file g st →
    PartialInv done file
      (fun w => match dictFind? items w with
        | some c => some c
        | none => g w)
      (indexWords file st items) := by
  intro items
  induction items with
  | nil =>
      intro st g _ hinv
      exact hinv.congrG (fun w => rfl)
  | cons item rest ih =>
      obtain ⟨word, freq⟩ := item
      intro st g hnd hinv
      have hnd' : word ∉ dictKeys rest ∧ (dictKeys rest).Nodup := List.nodup_cons.mp hnd
      have hmain : PartialInv done file
          (fun w => match dictFind? rest w with
            | some c => some c
            | none => if w = word then some freq else g w)
          (indexWords file st ((word, freq) :: rest)) := by
        cases hknown : dictFind? st.word_to_index word with
        | some i0 =>
            rw [indexWords_cons_known file st word freq rest hknown]
            exact ih _ _ hnd'.2 (partialInv_step_known hknown hinv)
        | none =>
            rw [indexWords_cons_new file st word freq rest hknown]
            exact ih _ _ hnd'.2 (partialInv_step_new hknown hinv)
      apply hmain.congrG
      intro w
      rw [dictFind?_cons]
      by_cases hw : word = w
      · have hrest : dictFind? rest w = none :=
          dictFind?_eq_none_of_not_mem_keys (hw ▸ hnd'.1)
        rw [hrest, if_pos hw, if_pos hw.symm]
      · rw [if_neg hw]
        cases hr : dictFind? rest w with
        | some c => rfl
        | none =>
            rw [if_neg (fun he => hw he.symm)]

theorem indexWords_document_lengths (file : String) :
    ∀ (items : List (String × Nat)) (st : IndexState),
    (indexWords file st items).document_lengths = st.document_lengths := by
  intro items
  induction items with
  | nil => intro st; rfl
  | cons item rest ih =>
      obtain ⟨word, freq⟩ := item
      intro st
      cases hknown : dictFind? st.word_to_index word with
      | some i0 =>
          rw [indexWords_cons_known file st word freq rest hknown]
          exact ih _
      | none =>
          rw [indexWords_cons_new file st word freq rest hknown]
          exact ih _

/-- Invariant of the index after the documents `done` have been scanned by
`build_index`: the trie-free part of the spec's InvertedIndex /
DocumentLengthTable contract. -/
structure IndexInv (done : List (String × Page)) (st : IndexState) : Prop where
  w2iNodup : (dictKeys st.word_to_index).Nodup
  posValid : ∀ w i, dictFind? st.word_to_index w = some i → i < st.inverted_index.length
  posInj : ∀ w w' i, dictFind? st.word_to_index w = some i →
      dictFind? st.word_to_index w' = some i → w = w'
  postingNodup : ∀ w i, dictFind? st.word_to_index w = some i →
      (dictKeys (st.inverted_index.getD i [])).Nodup
  postingFind : ∀ w i, dictFind? st.word_to_index w = some i → ∀ d,
      dictFind? (st.inverted_index.getD i []) d =
        if 1 ≤ freqIn done w d then some (freqIn done w d) else none
  unknownAbsent : ∀ w, dictFind? st.word_to_index w = none → ∀ d, freqIn done w d = 0
  lengths : ∀ d, dictFind? st.document_lengths d =
      (dictFind? done d).map (fun pg => pg.words.length)

theorem freqIn_append {done : List (String × Page)} {file : String} (page : Page)
    (h : dictFind? done file = none) (w d : String) :
    freqIn (done ++ [(file, page)]) w d =
      if d = file then page.words.count w else freqIn done w d := by
  rw [freqIn, dictFind?_append]
  by_cases hd : d = file
  · subst hd
    rw [h, if_pos rfl]
    show (match dictFind? [(d, page)] d with
      | some pg => pg.words.count w
      | none => 0) = page.words.count w
    rw [dictFind?_cons, if_pos rfl]
  · rw [if_neg hd, freqIn]
    cases hf : dictFind? done d with
    | some pg => rfl
    | none =>
        show (match dictFind? [(file, page)] d with
          | some pg => pg.words.count w
          | none => 0) = 0
        rw [dictFind?_cons, if_neg (fun he => hd he.symm), dictFind?_nil]

theorem indexInv_toPartial {done : List (String × Page)} {st : IndexState}
    (hinv : IndexInv done st) (file : String)
    (hfile : dictFind? done file = none)
    (st1 : IndexState) (h2 : st1.word_to_index = st.word_to_index)
    (h3 : st1.inverted_index = st.inverted_index) :
    PartialInv done file (fun _ => none) st1 := by
  have hzero : ∀ w, freqIn done w file = 0 := by
    intro w
    rw [freqIn, hfile]
  refine ⟨?_, ?_, ?_, ?_, ?_, ?_⟩
  · rw [h2]; exact hinv.w2iNodup
  · intro w i hi
    rw [h2] at hi
    rw [h3]
    exact hinv.posValid w i hi
  · intro w w' i hi hi'
    rw [h2] at hi hi'
    exact hinv.posInj w w' i hi hi'
  · intro w i hi
    rw [h2] at hi
    rw [h3]
    exact hinv.postingNodup w i hi
  · intro w i hi d
    rw [h2] at hi
    rw [h3, hinv.postingFind w i hi d]
    by_cases hd : d = file
    · subst hd
      rw [if_pos rfl, hzero w, if_neg (by omega)]
    · rw [if_neg hd]
  · intro w hw
    rw [h2] at hw
    exact ⟨hinv.unknownAbsent w hw, rfl⟩

theorem partialInv_toIndexInv {done : List (String × Page)} {file : String}
    {page : Page} {g : String → Option Nat} {st : IndexState}
    (hfile : dictFind? done file = none)
    (hg : ∀ w, g w =
      if 1 ≤ page.words.count w then some (page.words.count w) else none)
    (hlen : ∀ d, dictFind? st.document_lengths d =
      (dictFind? (done ++ [(file, page)]) d).map (fun pg => pg.words.length))
    (hp : PartialInv done file g st) :
    IndexInv (done ++ [(file, page)]) st := by
  refine ⟨hp.w2iNodup, hp.posValid, hp.posInj, hp.postingNodup, ?_, ?_, hlen⟩
  · intro w i hi d
    rw [hp.postingFind w i hi d, freqIn_append page hfile w d]
    by_cases hd : d = file
    · rw [if_pos hd, if_pos hd, hg w]
    · rw [if_neg hd, if_neg hd]
  · intro w hw d
    obtain ⟨hz, hgw⟩ := hp.unknownAbsent w hw
    rw [freqIn_append page hfile w d]
    by_cases hd : d = file
    · rw [if_pos hd]
      rw [hg w] at hgw
      by_cases hpos : 1 ≤ page.words.count w
      · rw [if_pos hpos] at hgw
        exact Option.noConfusion hgw
      · omega
    · rw [if_neg hd]
      exact hz d

theorem buildDocs_cons (st : IndexState) (file : String) (page : Page)
    (rest : List (String × Page)) :
    buildDocs st ((file, page) :: rest) =
      buildDocs (indexWords file
        { st with
          document_lengths := dictInsert st.document_lengths file
            (((counterItems page.words).map (fun p => p.2)).sum) }
        (counterItems page.words)) rest := rfl

/-- Scanning further documents preserves and extends the index invariant. -/
theorem buildDocs_inv :
    ∀ (pages done : List (String × Page)) (st : IndexState),
    (dictKeys (done ++ pages)).Nodup →
    IndexInv done st →
    IndexInv (done ++ pages) (buildDocs st pages) := by
  intro pages
  induction pages with
  | nil =>
      intro done st _ hinv
      rw [List.append_nil]
      exact hinv
  | cons pr rest ih =>
      obtain ⟨file, page⟩ := pr
      intro done st hnd hinv
      have hkeys : dictKeys (done ++ (file, page) :: rest) =
          dictKeys done ++ file :: dictKeys rest := by
        simp [dictKeys]
      rw [hkeys] at hnd
      have hfile_done : file ∉ dictKeys done := fun hm =>
        (List.disjoint_of_nodup_append hnd) hm (List.mem_cons_self _ _)
      have hfile_none : dictFind? done file = none :=
        dictFind?_eq_none_of_not_mem_keys hfile_done
      have hpart0 : PartialInv done file (fun _ => none)
          { st with
            document_lengths := dictInsert st.document_lengths file
              (((counterItems page.words).map (fun p => p.2)).sum) } :=
        indexInv_toPartial hinv file hfile_none _ rfl rfl
      have hndcnt : (dictKeys (counterItems page.words)).Nodup := by
        rw [dictKeys_counterItems]
        exact nodup_uniqList _
      have hpart1 := indexWords_inv file done (counterItems page.words) _ _ hndcnt hpart0
      have hpart2 : PartialInv done file
          (fun w => if 1 ≤ page.words.count w then some (page.words.count w) else none)
          (indexWords file
            { st with
              document_lengths := dictInsert st.document_lengths file
                (((counterItems page.words).map (fun p => p.2)).sum) }
            (counterItems page.words)) := by
        apply hpart1.congrG
        intro w
        rw [dictFind?_counterItems]
        by_cases h : 1 ≤ page.words.count w
        · rw [if_pos h]
        · rw [if_neg h]
      have hlen : ∀ d, dictFind? (indexWords file
          { st with
            document_lengths := dictInsert st.document_lengths file
              (((counterItems page.words).map (fun p => p.2)).sum) }
          (counterItems page.words)).document_lengths d =
          (dictFind? (done ++ [(file, page)]) d).map (fun pg => pg.words.length) := by
        intro d
        rw [indexWords_document_lengths]
        show dictFind? (dictInsert st.document_lengths file
          (((counterItems page.words).map (fun p => p.2)).sum)) d = _
        by_cases hd : d = file
        · subst hd
          rw [dictFind?_dictInsert_self, dictFind?_append, hfile_none, sum_counterItems]
          show some page.words.length = (dictFind? [(d, page)] d).map (fun pg => pg.words.length)
          rw [dictFind?_cons, if_pos rfl]
          rfl
        · rw [dictFind?_dictInsert_ne _ _ _ _ hd, hinv.lengths d, dictFind?_append]
          cases hf : dictFind? done d with
          | some pg => rfl
          | none =>
              show none = (dictFind? [(file, page)] d).map (fun pg => pg.words.length)
              rw [dictFind?_cons, if_neg (fun he => hd he.symm), dictFind?_nil]
              rfl
      have hinv' : IndexInv (done ++ [(file, page)])
          (indexWords file
            { st with
              document_lengths := dictInsert st.document_lengths file
                (((counterItems page.words).map (fun p => p.2)).sum) }
            (counterItems page.words)) :=
        partialInv_toIndexInv hfile_none (fun w => rfl) hlen hpart2
      have hnd2 : (dictKeys ((done ++ [(file, page)]) ++ rest)).Nodup := by
        simp only [dictKeys, List.map_append, List.map_cons, List.map_nil] at hnd ⊢
        simpa [List.append_assoc] using hnd
      have hres := ih (done ++ [(file, page)]) _ hnd2 hinv'
      rw [List.append_assoc] at hres
      exact hres

/-- After `build_index`'s document scan, the index invariant holds for the
full crawled page set. -/
theorem buildState_inv (W : Web) : IndexInv (crawl W).pages (buildState W) := by
  have hinit : IndexInv [] ⟨[], [], []⟩ := by
    refine ⟨List.nodup_nil, ?_, ?_, ?_, ?_, ?_, ?_⟩
    · intro w i hi
      rw [dictFind?_nil] at hi
      exact Option.noConfusion hi
    · intro w w' i hi _
      rw [dictFind?_nil] at hi
      exact Option.noConfusion hi
    · intro w i hi
      rw [dictFind?_nil] at hi
      exact Option.noConfusion hi
    · intro w i hi
      rw [dictFind?_nil] at hi
      exact Option.noConfusion hi
    · intro w _ d
      rw [freqIn, dictFind?_nil]
    · intro d
      rw [dictFind?_nil]
      rfl
  have := buildDocs_inv (crawl W).pages [] ⟨[], [], []⟩
    (by simpa using crawl_pages_keys_nodup W) hinit
  simpa [buildState] using this

/-- The trie built by `build_index` answers exactly the `word_to_index`
dict. -/
theorem build_trie_search (mode : String) (W : Web) (w : String) :
    (build mode W).trie.searchWord w = dictFind? (build mode W).word_to_index w := by
  show ((buildState W).word_to_index.foldl
      (fun t wi => t.insertWord wi.1 wi.2) Trie.empty).searchWord w =
    dictFind? (buildState W).word_to_index w
  rw [Trie.searchWord_foldl_insertWord Trie.empty _ (buildState_inv W).w2iNodup w]
  cases h : dictFind? (buildState W).word_to_index w with
  | some i => rfl
  | none => exact Trie.searchAux_empty w.data

/-! ## The query side (`SearchEngine.search`, `compute_score`) -/

/-- `set(self.inverted_index[idx].keys())` for one query term: the posting
list's document keys. -/
def docsOf (e : Engine) (t : String) : List String :=
  dictKeys (e.inverted_index.getD ((e.trie.searchWord t).getD 0) [])

/-- `set.intersection(*doc_sets)`: documents present in every query term's
posting list. -/
def matchingDocs (e : Engine) (terms : List String) : List String :=
  match terms.map (fun t => docsOf e t) with
  | [] => []
  | s :: rest => s.filter (fun d => rest.all (fun s2 => decide (d ∈ s2)))

/-- `SearchEngine.compute_score`: raw frequency in `"simple"` mode,
otherwise `tf * idf` with `tf = freq / document_lengths[doc]` and
`idf = log((1 + N) / (1 + df)) + 1`. -/
noncomputable def compute_score (e : Engine) (word doc : String)
    (freq N df : Nat) : ℝ :=
  if e.ranking_mode = "simple" then (freq : ℝ)
  else
    let tf : ℝ := (freq : ℝ) / (((dictFind? e.document_lengths doc).getD 0 : Nat) : ℝ)
    let idf : ℝ := Real.log ((1 + (N : ℝ)) / (1 + (df : ℝ))) + 1
    tf * idf

/-- The per-document total of the ranking loop: summed `compute_score` over
the query terms plus the hyperlink bonus `0.1 * self.incoming_links[doc]`. -/
noncomputable def docScore (e : Engine) (terms : List String) (doc : String) : ℝ :=
  (terms.foldl (fun acc t =>
    let idx := (e.trie.searchWord t).getD 0
    let occurrences := e.inverted_index.getD idx []
    let df := occurrences.length
    let freq := (dictFind? occurrences doc).getD 0
    acc + compute_score e t doc freq e.pages.length df) 0)
  + (0.1 : ℝ) * (((dictFind? e.incoming_links doc).getD 0 : Nat) : ℝ)

/-- The ranking block of `search`: score every matching document and sort by
descending score (`sorted(..., key=lambda x: x[1], reverse=True)`, a stable
sort). -/
noncomputable def searchRank (e : Engine) (terms : List String) : List (String × ℝ) :=
  ((matchingDocs e terms).map (fun doc => (doc, docScore e terms doc))).mergeSort
    (fun a b => decide (b.2 ≤ a.2))

/-- `SearchEngine.search`: normalise the query; empty if no terms remain,
if any term is missing from the trie, or if the posting-list intersection
is empty; otherwise rank the matching documents. -/
noncomputable def search (e : Engine) (query : String) : List (String × ℝ) :=
  let terms := normalizeTokens query
  if terms.isEmpty then []
  else if terms.any (fun t => (e.trie.searchWord t).isNone) then []
  else if (matchingDocs e terms).isEmpty then []
  else searchRank e terms

/-- A `defaultdict(int)` read (`self.incoming_links[doc]`): materialises a
zero entry when the key is absent.  This is the state effect of that read. -/
def ddTouch (l : List (String × Nat)) (k : String) : List (String × Nat) :=
  if (dictFind? l k).isSome then l else l ++ [(k, 0)]

/-- The state effect of `SearchEngine.search` on the engine: the ranking
loop's `self.incoming_links[doc]` reads touch the inbound-link
`defaultdict`, one read per matching document; nothing else is written. -/
def searchState (e : Engine) (query : String) : Engine :=
  let terms := normalizeTokens query
  if terms.isEmpty then e
  else if terms.any (fun t => (e.trie.searchWord t).isNone) then e
  else if (matchingDocs e terms).isEmpty then e
  else
    { e with
      incoming_links :=
        (matchingDocs e terms).foldl (fun acc doc => ddTouch acc doc) e.incoming_links }

theorem build_word_to_index (mode : String) (W : Web) :
    (build mode W).word_to_index = (buildState W).word_to_index := rfl

theorem build_inverted_index (mode : String) (W : Web) :
    (build mode W).inverted_index = (buildState W).inverted_index := rfl

theorem build_document_lengths (mode : String) (W : Web) :
    (build mode W).document_lengths = (buildState W).document_lengths := rfl

theorem build_pages (mode : String) (W : Web) :
    (build mode W).pages = (crawl W).pages := rfl

theorem build_incoming (mode : String) (W : Web) :
    (build mode W).incoming_links = buildIncoming (crawl W).links := rfl

theorem build_ranking_mode (mode : String) (W : Web) :
    (build mode W).ranking_mode = mode := rfl

/-- A document is in a known term's posting-list key set exactly when it
contains the term. -/
theorem mem_docsOf_iff (mode : String) (W : Web) (t d : String)
    (h : ((build mode W).trie.searchWord t).isSome) :
    d ∈ docsOf (build mode W) t ↔ 1 ≤ freqIn (crawl W).pages t d := by
  obtain ⟨i, hi⟩ := Option.isSome_iff_exists.mp h
  have hw2i : dictFind? (buildState W).word_to_index t = some i := by
    rw [← build_word_to_index mode W, ← build_trie_search]
    exact hi
  have hpf := (buildState_inv W).postingFind t i hw2i
  rw [docsOf, hi, Option.getD_some, build_inverted_index,
    ← dictFind?_isSome_iff_mem_keys, hpf d]
  by_cases hc : 1 ≤ freqIn (crawl W).pages t d
  · simp [hc]
  · simp [if_neg hc, hc]

/-- Membership in the posting-list intersection means containing every
query term. -/
theorem mem_matchingDocs_iff (mode : String) (W : Web) (terms : List String)
    (d : String) (hne : terms ≠ [])
    (hall : ∀ t ∈ terms, ((build mode W).trie.searchWord t).isSome) :
    d ∈ matchingDocs (build mode W) terms ↔
      ∀ t ∈ terms, 1 ≤ freqIn (crawl W).pages t d := by
  cases terms with
  | nil => exact absurd rfl hne
  | cons t0 rest =>
      rw [matchingDocs]
      simp only [List.map_cons]
      rw [List.mem_filter]
      constructor
      · rintro ⟨h0, hrest⟩
        intro t ht
        rcases List.mem_cons.mp ht with rfl | ht
        · exact (mem_docsOf_iff mode W t d (hall t (List.mem_cons_self _ _))).mp h0
        · have := List.all_eq_true.mp hrest (docsOf (build mode W) t)
            (List.mem_map.mpr ⟨t, ht, rfl⟩)
          have hmem : d ∈ docsOf (build mode W) t := by simpa using this
          exact (mem_docsOf_iff mode W t d (hall t (List.mem_cons_of_mem _ ht))).mp hmem
      · intro hforall
        refine ⟨(mem_docsOf_iff mode W t0 d (hall t0 (List.mem_cons_self _ _))).mpr
          (hforall t0 (List.mem_cons_self _ _)), ?_⟩
        rw [List.all_eq_true]
        intro s hs
        rcases List.mem_map.mp hs with ⟨t, ht, rfl⟩
        simpa using (mem_docsOf_iff mode W t d
          (hall t (List.mem_cons_of_mem _ ht))).mpr (hforall t (List.mem_cons_of_mem _ ht))

/-- A document containing a term was crawled. -/
theorem crawled_of_freqIn_pos {pages : List (String × Page)} {t d : String}
    (h : 1 ≤ freqIn pages t d) : ∃ pg, dictFind? pages d = some pg := by
  rw [freqIn] at h
  cases hf : dictFind? pages d with
  | some pg => exact ⟨pg, rfl⟩
  | none =>
      rw [hf] at h
      exact absurd (show (1 : Nat) ≤ 0 from h) (by omega)

/-- Looking up a candidate in a known term's posting list returns the raw
frequency (the loop's `occurrences[doc]`). -/
theorem posting_freq (mode : String) (W : Web) (t d : String) {i : Nat}
    (hi : (build mode W).trie.searchWord t = some i) :
    (dictFind? ((build mode W).inverted_index.getD i []) d).getD 0 =
      freqIn (crawl W).pages t d := by
  have hw2i : dictFind? (buildState W).word_to_index t = some i := by
    rw [← build_word_to_index mode W, ← build_trie_search]
    exact hi
  rw [build_inverted_index, (buildState_inv W).postingFind t i hw2i d]
  by_cases hc : 1 ≤ freqIn (crawl W).pages t d
  · rw [if_pos hc, Option.getD_some]
  · rw [if_neg hc]
    have hz : freqIn (crawl W).pages t d = 0 := by omega
    rw [hz]
    rfl

theorem sublist_dictKeys_filter {α β : Type} (p : α × β → Bool) (l : List (α × β)) :
    (dictKeys (l.filter p)).Sublist (dictKeys l) := by
  simp only [dictKeys]
  exact (List.filter_sublist l).map (fun pr => pr.1)

/-- The posting-list length of a known term is its document frequency: the
number of crawled documents containing the term. -/
theorem posting_length (mode : String) (W : Web) (t : String) {i : Nat}
    (hi : (build mode W).trie.searchWord t = some i) :
    ((build mode W).inverted_index.getD i []).length =
      ((crawl W).pages.filter (fun pr => decide (1 ≤ pr.2.words.count t))).length := by
  have hw2i : dictFind? (buildState W).word_to_index t = some i := by
    rw [← build_word_to_index mode W, ← build_trie_search]
    exact hi
  have hnodup1 := (buildState_inv W).postingNodup t i hw2i
  have hnodup2 : (dictKeys ((crawl W).pages.filter
      (fun pr => decide (1 ≤ pr.2.words.count t)))).Nodup :=
    (crawl_pages_keys_nodup W).sublist (sublist_dictKeys_filter _ _)
  have hmemiff : ∀ d, d ∈ dictKeys ((buildState W).inverted_index.getD i []) ↔
      d ∈ dictKeys ((crawl W).pages.filter
        (fun pr => decide (1 ≤ pr.2.words.count t))) := by
    intro d
    rw [← dictFind?_isSome_iff_mem_keys, (buildState_inv W).postingFind t i hw2i d]
    constructor
    · intro hs
      by_cases hc : 1 ≤ freqIn (crawl W).pages t d
      · obtain ⟨pg, hpg⟩ := crawled_of_freqIn_pos hc
        have hcount : 1 ≤ pg.words.count t := by
          rw [freqIn, hpg] at hc
          exact hc
        simp only [dictKeys, List.mem_map]
        exact ⟨(d, pg), List.mem_filter.mpr ⟨dictFind?_mem hpg, by simpa using hcount⟩, rfl⟩
      · rw [if_neg hc] at hs
        exact absurd hs (by simp)
    · intro hmem
      simp only [dictKeys, List.mem_map] at hmem
      obtain ⟨pr, hpr, hfst⟩ := hmem
      have hflt := List.mem_filter.mp hpr
      have hfind : dictFind? (crawl W).pages pr.1 = some pr.2 :=
        mem_dictFind?_of_nodup (crawl_pages_keys_nodup W) (by
          rcases pr with ⟨a, b⟩
          exact hflt.1)
      have hfind2 : dictFind? (crawl W).pages d = some pr.2 := by
        rw [← hfst]
        exact hfind
      have hc : 1 ≤ freqIn (crawl W).pages t d := by
        rw [freqIn, hfind2]
        simpa using hflt.2
      rw [if_pos hc]
      simp
  have hperm : (dictKeys ((buildState W).inverted_index.getD i [])).Perm
      (dictKeys ((crawl W).pages.filter (fun pr => decide (1 ≤ pr.2.words.count t)))) :=
    (List.perm_ext_iff_of_nodup hnodup1 hnodup2).mpr hmemiff
  have hlen := hperm.length_eq
  simpa [dictKeys] using hlen

/-- A crawled document's entry in the length table is its total term
count. -/
theorem lengths_lookup (mode : String) (W : Web) (d : String) {pg : Page}
    (h : dictFind? (crawl W).pages d = some pg) :
    dictFind? ((build mode W).document_lengths) d = some pg.words.length := by
  rw [build_document_lengths, (buildState_inv W).lengths d, h]
  rfl

theorem foldl_add_map {α : Type} (f : α → ℝ) :
    ∀ (l : List α) (a : ℝ), l.foldl (fun acc t => acc + f t) a = a + (l.map f).sum := by
  intro l
  induction l with
  | nil => intro a; simp
  | cons t l ih =>
      intro a
      rw [List.foldl_cons, ih, List.map_cons, List.sum_cons]
      ring

theorem search_empty_of_no_terms (e : Engine) (q : String)
    (h : normalizeTokens q = []) : search e q = [] := by
  simp only [search, h, List.isEmpty_nil, if_true]

theorem search_empty_of_unknown (e : Engine) (q : String)
    {t : String} (ht : t ∈ normalizeTokens q)
    (h : e.trie.searchWord t = none) : search e q = [] := by
  simp only [search]
  by_cases h1 : (normalizeTokens q).isEmpty
  · rw [if_pos h1]
  · rw [if_neg h1, if_pos (by
      rw [List.any_eq_true]
      exact ⟨t, ht, by simp [h]⟩)]

theorem search_empty_of_no_match (e : Engine) (q : String)
    (h : matchingDocs e (normalizeTokens q) = []) : search e q = [] := by
  simp only [search]
  by_cases h1 : (normalizeTokens q).isEmpty
  · rw [if_pos h1]
  · rw [if_neg h1]
    by_cases h2 : (normalizeTokens q).any (fun t => (e.trie.searchWord t).isNone)
    · rw [if_pos h2]
    · rw [if_neg h2, if_pos (by rw [h]; rfl)]

theorem search_eq_rank (e : Engine) (q : String)
    (h1 : normalizeTokens q ≠ [])
    (h2 : ∀ t ∈ normalizeTokens q, (e.trie.searchWord t).isSome)
    (h3 : matchingDocs e (normalizeTokens q) ≠ []) :
    search e q = searchRank e (normalizeTokens q) := by
  simp only [search]
  rw [if_neg (by simpa [List.isEmpty_iff] using h1)]
  rw [if_neg (by
    rw [List.any_eq_true]
    rintro ⟨t, ht, hnone⟩
    have := h2 t ht
    rw [Option.isNone_iff_eq_none] at hnone
    rw [hnone] at this
    simp at this)]
  rw [if_neg (by simpa [List.isEmpty_iff] using h3)]

/-- Everything in a search result is a matching document carrying its
`docScore`; the query had terms and every term was in the trie. -/
theorem mem_search (e : Engine) (q : String) (p : String × ℝ) (hp : p ∈ search e q) :
    normalizeTokens q ≠ [] ∧
    (∀ t ∈ normalizeTokens q, (e.trie.searchWord t).isSome) ∧
    p.1 ∈ matchingDocs e (normalizeTokens q) ∧
    p.2 = docScore e (normalizeTokens q) p.1 := by
  by_cases h1 : normalizeTokens q = []
  · rw [search_empty_of_no_terms e q h1] at hp
    exact absurd hp (List.not_mem_nil p)
  by_cases h2 : ∀ t ∈ normalizeTokens q, (e.trie.searchWord t).isSome
  · by_cases h3 : matchingDocs e (normalizeTokens q) = []
    · rw [search_empty_of_no_match e q h3] at hp
      exact absurd hp (List.not_mem_nil p)
    · rw [search_eq_rank e q h1 h2 h3, searchRank] at hp
      have hp2 := (List.mergeSort_perm _ _).mem_iff.mp hp
      obtain ⟨d, hd, hpd⟩ := List.mem_map.mp hp2
      refine ⟨h1, h2, ?_, ?_⟩
      · rw [← hpd]
        exact hd
      · rw [← hpd]
  · push_neg at h2
    obtain ⟨t, ht, hnone⟩ := h2
    have hnone2 : e.trie.searchWord t = none := by
      simpa using hnone
    rw [search_empty_of_unknown e q ht hnone2] at hp
    exact absurd hp (List.not_mem_nil p)

/-! ## Inbound-link counting -/

theorem ddIncr_get (l : List (String × Nat)) (k k' : String) :
    (dictFind? (ddIncr l k) k').getD 0 =
      (if k = k' then 1 else 0) + (dictFind? l k').getD 0 := by
  rw [ddIncr]
  cases hf : dictFind? l k with
  | some v =>
      by_cases hk : k = k'
      · subst hk
        rw [dictFind?_dictSet_self l k _ (by simp [hf]), if_pos rfl, hf]
        simp
        omega
      · rw [dictFind?_dictSet_ne l k k' _ (fun he => hk he.symm), if_neg hk]
        simp
  | none =>
      by_cases hk : k = k'
      · subst hk
        rw [dictFind?_append, hf, if_pos rfl]
        show (dictFind? [(k, 1)] k).getD 0 = 1 + (Option.getD none 0)
        rw [dictFind?_cons, if_pos rfl]
        rfl
      · rw [dictFind?_append, if_neg hk]
        cases hf' : dictFind? l k' with
        | some v => simp
        | none =>
            show (dictFind? [(k, 1)] k').getD 0 = 0 + (Option.getD none 0)
            rw [dictFind?_cons, if_neg hk, dictFind?_nil]
            rfl

theorem foldl_ddIncr_get (d : String) :
    ∀ (dests : List String) (acc : List (String × Nat)),
    (dictFind? (dests.foldl (fun a k => ddIncr a k) acc) d).getD 0 =
      dests.count d + (dictFind? acc d).getD 0 := by
  intro dests
  induction dests with
  | nil => intro acc; simp
  | cons k rest ih =>
      intro acc
      rw [List.foldl_cons, ih, ddIncr_get, List.count_cons]
      by_cases hk : k = d
      · rw [if_pos hk, if_pos (by simp [hk])]
        omega
      · rw [if_neg hk, if_neg (by simp [hk])]
        omega

/-- `incoming_links[d]` after the accumulation loop is the number of
recorded edges targeting `d`. -/
theorem buildIncoming_get (d : String) (links : List (String × List String)) :
    (dictFind? (buildIncoming links) d).getD 0 =
      (links.map (fun pr => pr.2.count d)).sum := by
  have hgen : ∀ (ls : List (String × List String)) (acc : List (String × Nat)),
      (dictFind? (ls.foldl (fun acc2 pr =>
        pr.2.foldl (fun a k => ddIncr a k) acc2) acc) d).getD 0 =
      (ls.map (fun pr => pr.2.count d)).sum + (dictFind? acc d).getD 0 := by
    intro ls
    induction ls with
    | nil => intro acc; simp
    | cons pr rest ih =>
        intro acc
        rw [List.foldl_cons, ih, foldl_ddIncr_get, List.map_cons, List.sum_cons]
        omega
  rw [buildIncoming, hgen]
  simp [dictFind?_nil]

/-! ## Spec-side quantities: df, document length, inbound edge count -/

/-- Document frequency of a term: the number of crawled documents that
contain it. -/
def dfCount (W : Web) (t : String) : Nat :=
  ((crawl W).pages.filter (fun pr => decide (1 ≤ pr.2.words.count t))).length

/-- A crawled document's total term count (0 for uncrawled documents). -/
def docLen (W : Web) (d : String) : Nat :=
  match dictFind? (crawl W).pages d with
  | some pg => pg.words.length
  | none => 0

/-- The number of recorded edges (src → d) in the traversal's edge
multimap, repeats included. -/
def edgesTo (W : Web) (d : String) : Nat :=
  ((crawl W).links.map (fun pr => pr.2.count d)).sum

/-- The engine's accumulated inbound-link count is exactly the edge count
of the traversal. -/
theorem build_incoming_get (mode : String) (W : Web) (d : String) :
    (dictFind? (build mode W).incoming_links d).getD 0 = edgesTo W d := by
  rw [build_incoming, buildIncoming_get, edgesTo]

theorem sum_links_filter (W : Web) (d : String) :
    ∀ (order : List String),
    ((order.filter (fun f => hasLinksB W f)).map (fun f => (linksOf W f).count d)).sum =
    ((order.filter (fun f => fetchedB W f)).map (fun f => (linksOf W f).count d)).sum := by
  intro order
  induction order with
  | nil => rfl
  | cons f rest ih =>
      rw [List.filter_cons, List.filter_cons]
      cases hfet : fetchedB W f with
      | false =>
          have hhl : hasLinksB W f = false := by
            rw [hasLinksB, hfet, Bool.false_and]
          rw [hhl]
          simp only [Bool.false_eq_true, if_false]
          exact ih
      | true =>
          cases hemp : (linksOf W f).isEmpty with
          | true =>
              have hhl : hasLinksB W f = false := by
                rw [hasLinksB, hfet, hemp]
                rfl
              have hnil : linksOf W f = [] := List.isEmpty_iff.mp hemp
              rw [hhl]
              simp only [Bool.false_eq_true, if_false, if_pos rfl, if_true,
                List.map_cons, List.sum_cons, hnil, List.count_nil]
              rw [ih]
              simp
          | false =>
              have hhl : hasLinksB W f = true := by
                rw [hasLinksB, hfet, hemp]
                rfl
              rw [hhl]
              simp only [if_pos rfl, if_true, List.map_cons, List.sum_cons]
              rw [ih]

/-- The edge count targeting `d` equals the sum over crawled pages of the
occurrences of `d` in their outgoing links. -/
theorem edgesTo_eq_pages_sum (W : Web) (d : String) :
    edgesTo W d = ((crawl W).pages.map (fun pr => (linksOf W pr.1).count d)).sum := by
  obtain ⟨order, _, _, hp, hl⟩ := crawl_spec W
  rw [edgesTo, hp, hl, List.map_map, List.map_map]
  have h1 : ((order.filter (fun f => hasLinksB W f)).map
      ((fun pr : String × List String => pr.2.count d) ∘ fun f => (f, linksOf W f))).sum =
      ((order.filter (fun f => hasLinksB W f)).map (fun f => (linksOf W f).count d)).sum := by
    rfl
  have h2 : ((order.filter (fun f => fetchedB W f)).map
      ((fun pr : String × Page => (linksOf W pr.1).count d) ∘ fun f => (f, pageOf W f))).sum =
      ((order.filter (fun f => fetchedB W f)).map (fun f => (linksOf W f).count d)).sum := by
    rfl
  rw [h1, h2]
  exact sum_links_filter W d order

/-- The main score computation: in TF-IDF mode the score of a crawled
candidate is the spec's per-term sum plus the 0.1 popularity bonus. -/
theorem docScore_formula (mode : String) (W : Web) (terms : List String) (d : String)
    (hmode : mode ≠ "simple")
    (hall : ∀ t ∈ terms, ((build mode W).trie.searchWord t).isSome)
    (hd : ∃ pg, dictFind? (crawl W).pages d = some pg) :
    docScore (build mode W) terms d =
      (terms.map (fun t =>
        ((freqIn (crawl W).pages t d : ℝ) / (docLen W d : ℝ)) *
          (Real.log ((1 + ((crawl W).pages.length : ℝ)) / (1 + (dfCount W t : ℝ))) + 1))).sum
      + (0.1 : ℝ) * (edgesTo W d : ℝ) := by
  obtain ⟨pg, hpg⟩ := hd
  simp only [docScore]
  rw [foldl_add_map (fun t => compute_score (build mode W) t d
      ((dictFind? ((build mode W).inverted_index.getD
        (((build mode W).trie.searchWord t).getD 0) []) d).getD 0)
      ((build mode W).pages.length)
      (((build mode W).inverted_index.getD
        (((build mode W).trie.searchWord t).getD 0) []).length)) terms 0]
  rw [zero_add, build_incoming_get]
  congr 1
  congr 1
  apply List.map_congr_left
  intro t ht
  obtain ⟨i, hi⟩ := Option.isSome_iff_exists.mp (hall t ht)
  rw [hi, Option.getD_some, posting_freq mode W t d hi, posting_length mode W t hi]
  rw [compute_score]
  rw [if_neg (by rw [build_ranking_mode]; exact hmode)]
  have hlen : (dictFind? ((build mode W).document_lengths) d).getD 0 = docLen W d := by
    rw [lengths_lookup mode W d hpg, Option.getD_some, docLen, hpg]
  rw [hlen, build_pages]
  rfl

/-- The output of `search` is sorted by descending score (`sorted` with
`key=lambda x: x[1], reverse=True`). -/
theorem search_sorted (e : Engine) (q : String) :
    List.Pairwise (fun (a b : String × ℝ) => b.2 ≤ a.2) (search e q) := by
  by_cases h1 : normalizeTokens q = []
  · rw [search_empty_of_no_terms e q h1]
    exact List.Pairwise.nil
  by_cases h2 : ∀ t ∈ normalizeTokens q, (e.trie.searchWord t).isSome
  · by_cases h3 : matchingDocs e (normalizeTokens q) = []
    · rw [search_empty_of_no_match e q h3]
      exact List.Pairwise.nil
    · rw [search_eq_rank e q h1 h2 h3, searchRank]
      have hs := @List.sorted_mergeSort (String × ℝ)
        (fun (a b : String × ℝ) => decide (b.2 ≤ a.2))
        (fun a b c hab hbc => by
          simp only [decide_eq_true_eq] at hab hbc ⊢
          exact le_trans hbc hab)
        (fun a b => by
          simp only [Bool.or_eq_true, decide_eq_true_eq]
          exact le_total b.2 a.2)
        ((matchingDocs e (normalizeTokens q)).map
          (fun doc => (doc, docScore e (normalizeTokens q) doc)))
      exact hs.imp (fun h => of_decide_eq_true h)
  · push_neg at h2
    obtain ⟨t, ht, hnone⟩ := h2
    have hnone2 : e.trie.searchWord t = none := by simpa using hnone
    rw [search_empty_of_unknown e q ht hnone2]
    exact List.Pairwise.nil

theorem searchState_other_fields (e : Engine) (q : String) :
    (searchState e q).ranking_mode = e.ranking_mode ∧
    (searchState e q).pages = e.pages ∧
    (searchState e q).linksMap = e.linksMap ∧
    (searchState e q).trie = e.trie ∧
    (searchState e q).inverted_index = e.inverted_index ∧
    (searchState e q).word_to_index = e.word_to_index ∧
    (searchState e q).document_lengths = e.document_lengths := by
  rw [searchState]
  by_cases h1 : (normalizeTokens q).isEmpty
  · rw [if_pos h1]
    exact ⟨rfl, rfl, rfl, rfl, rfl, rfl, rfl⟩
  · rw [if_neg h1]
    by_cases h2 : (normalizeTokens q).any (fun t => (e.trie.searchWord t).isNone)
    · rw [if_pos h2]
      exact ⟨rfl, rfl, rfl, rfl, rfl, rfl, rfl⟩
    · rw [if_neg h2]
      by_cases h3 : (matchingDocs e (normalizeTokens q)).isEmpty
      · rw [if_pos h3]
        exact ⟨rfl, rfl, rfl, rfl, rfl, rfl, rfl⟩
      · rw [if_neg h3]
        exact ⟨rfl, rfl, rfl, rfl, rfl, rfl, rfl⟩

theorem ddTouch_get (l : List (String × Nat)) (k d : String) :
    (dictFind? (ddTouch l k) d).getD 0 = (dictFind? l d).getD 0 := by
  rw [ddTouch]
  by_cases h : (dictFind? l k).isSome
  · rw [if_pos h]
  · rw [if_neg h, dictFind?_append]
    cases hf : dictFind? l d with
    | some v => rfl
    | none =>
        show (dictFind? [(k, 0)] d).getD 0 = (Option.getD none 0)
        rw [dictFind?_cons, dictFind?_nil]
        by_cases hk : k = d
        · rw [if_pos hk]
          rfl
        · rw [if_neg hk]

theorem foldl_ddTouch_get (d : String) :
    ∀ (docs : List String) (acc : List (String × Nat)),
    (dictFind? (docs.foldl (fun a k => ddTouch a k) acc) d).getD 0 =
      (dictFind? acc d).getD 0 := by
  intro docs
  induction docs with
  | nil => intro acc; rfl
  | cons k rest ih =>
      intro acc
      rw [List.foldl_cons, ih, ddTouch_get]

/-- The effective inbound count of every document (with the defaultdict's
0 default) is unchanged by a search. -/
theorem searchState_incoming_get (e : Engine) (q : String) (d : String) :
    (dictFind? (searchState e q).incoming_links d).getD 0 =
      (dictFind? e.incoming_links d).getD 0 := by
  rw [searchState]
  by_cases h1 : (normalizeTokens q).isEmpty
  · rw [if_pos h1]
  · rw [if_neg h1]
    by_cases h2 : (normalizeTokens q).any (fun t => (e.trie.searchWord t).isNone)
    · rw [if_pos h2]
    · rw [if_neg h2]
      by_cases h3 : (matchingDocs e (normalizeTokens q)).isEmpty
      · rw [if_pos h3]
      · rw [if_neg h3]
        exact foldl_ddTouch_get d _ _

/-! ## A concrete one-document collection for witnesses -/

/-- The parser output for the example file: title element `Alpha`, visible
text `hello hello`, no links. -/
def rawA : Raw := { titleTag := some "Alpha", text := "hello hello", hrefs := [] }

/-- A collection with the single readable file `a.html`. -/
def Wex : Web :=
  { listing := ["a.html"], fetch := fun f => if f = "a.html" then some rawA else none }

theorem docScore_Wex_value :
    docScore (build "tf-idf" Wex) (normalizeTokens "hello") "a.html" = 1 := by
  have hterms : normalizeTokens "hello" = ["hello"] := by decide
  rw [hterms]
  rw [docScore_formula "tf-idf" Wex ["hello"] "a.html" (by decide)
    (by decide)
    ⟨⟨"Alpha", ["hello", "hello"]⟩, by decide⟩]
  have hf : freqIn (crawl Wex).pages "hello" "a.html" = 2 := by decide
  have hl : docLen Wex "a.html" = 2 := by decide
  have hdf : dfCount Wex "hello" = 1 := by decide
  have hN : (crawl Wex).pages.length = 1 := by decide
  have hE : edgesTo Wex "a.html" = 0 := by decide
  rw [List.map_cons, List.map_nil, List.sum_cons, List.sum_nil, hf, hl, hdf, hN, hE]
  push_cast
  rw [show ((1 : ℝ) + 1) / (1 + 1) = 1 by norm_num, Real.log_one]
  norm_num

theorem search_Wex_eval :
    search (build "tf-idf" Wex) "hello" = [("a.html", (1 : ℝ))] := by
  have h1 : normalizeTokens "hello" ≠ [] := by decide
  have h2 : ∀ t ∈ normalizeTokens "hello",
      ((build "tf-idf" Wex).trie.searchWord t).isSome := by decide
  have h3 : matchingDocs (build "tf-idf" Wex) (normalizeTokens "hello") ≠ [] := by decide
  rw [search_eq_rank _ _ h1 h2 h3, searchRank]
  have hm : matchingDocs (build "tf-idf" Wex) (normalizeTokens "hello") = ["a.html"] := by
    decide
  rw [hm, List.map_cons, List.map_nil, List.mergeSort_singleton, docScore_Wex_value]

/-! ## The claims -/

/-- Claim C9: after `crawl`, the recorded pages are exactly the enumerated
`.html` files whose fetch succeeds, independent of the link structure;
every recorded page carries exactly the extracted title and word
sequence. -/
theorem C9_crawl_pages_are_readable_enumerated_files (W : Web) (f : String) :
    ((∃ pg, (f, pg) ∈ (crawl W).pages) ↔ f ∈ allFiles W ∧ (W.fetch f).isSome) ∧
    ∀ pg, (f, pg) ∈ (crawl W).pages → pg = pageOf W f := by
  constructor
  · constructor
    · rintro ⟨pg, hm⟩
      have := (mem_crawl_pages_iff W f pg).mp hm
      exact ⟨this.1, this.2.1⟩
    · rintro ⟨hall, hsome⟩
      exact ⟨pageOf W f, (mem_crawl_pages_iff W f _).mpr ⟨hall, hsome, rfl⟩⟩
  · intro pg hm
    exact ((mem_crawl_pages_iff W f pg).mp hm).2.2

theorem C9_witness :
    ((∃ pg, ("a.html", pg) ∈ (crawl Wex).pages) ↔
      "a.html" ∈ allFiles Wex ∧ (Wex.fetch "a.html").isSome) ∧
    ∀ pg, ("a.html", pg) ∈ (crawl Wex).pages → pg = pageOf Wex "a.html" :=
  C9_crawl_pages_are_readable_enumerated_files Wex "a.html"

/-- Claim C6: after `build_index`, a document's inbound-link count equals
the number of edges targeting it in the traversal's edge multimap —
equivalently the total occurrences of the document among the outgoing
links of all crawled pages — with repeated links counted and targets that
were never fetched included (`d` is unrestricted). -/
theorem C6_inbound_counts_are_edge_counts (mode : String) (W : Web) (d : String) :
    (dictFind? (build mode W).incoming_links d).getD 0 = edgesTo W d ∧
    edgesTo W d = ((crawl W).pages.map (fun pr => (linksOf W pr.1).count d)).sum :=
  ⟨build_incoming_get mode W d, edgesTo_eq_pages_sum W d⟩

/-- Claim C7: every term occurring in a crawled document has exactly one
posting list: the trie returns a valid position, the posting list there is
non-empty, its entries are exactly the documents containing the term with
their raw counts, and no other term shares the position. -/
theorem C7_term_lookup_posting_invariant (mode : String) (W : Web) (t : String)
    (h : ∃ d pg, (d, pg) ∈ (crawl W).pages ∧ 1 ≤ pg.words.count t) :
    ∃ i, (build mode W).trie.searchWord t = some i ∧
      i < (build mode W).inverted_index.length ∧
      (build mode W).inverted_index.getD i [] ≠ [] ∧
      (∀ d, dictFind? ((build mode W).inverted_index.getD i []) d =
        if 1 ≤ freqIn (crawl W).pages t d
        then some (freqIn (crawl W).pages t d) else none) ∧
      ∀ t', (build mode W).trie.searchWord t' = some i → t' = t := by
  obtain ⟨d0, pg0, hmem, hcnt⟩ := h
  have hfind0 : dictFind? (crawl W).pages d0 = some pg0 :=
    mem_dictFind?_of_nodup (crawl_pages_keys_nodup W) hmem
  have hfreq0 : 1 ≤ freqIn (crawl W).pages t d0 := by
    rw [freqIn, hfind0]
    exact hcnt
  cases hw : dictFind? (buildState W).word_to_index t with
  | none =>
      exfalso
      have := (buildState_inv W).unknownAbsent t hw d0
      omega
  | some i =>
      have htrie : (build mode W).trie.searchWord t = some i := by
        rw [build_trie_search, build_word_to_index]
        exact hw
      refine ⟨i, htrie, ?_, ?_, ?_, ?_⟩
      · rw [build_inverted_index]
        exact (buildState_inv W).posValid t i hw
      · intro hnil
        have hnil' : (buildState W).inverted_index.getD i [] = [] := hnil
        have hpf := (buildState_inv W).postingFind t i hw d0
        rw [hnil', dictFind?_nil, if_pos hfreq0] at hpf
        exact Option.noConfusion hpf
      · intro d
        rw [build_inverted_index]
        exact (buildState_inv W).postingFind t i hw d
      · intro t' ht'
        rw [build_trie_search, build_word_to_index] at ht'
        exact (buildState_inv W).posInj t' t i ht' hw

theorem C7_witness :
    (∃ d pg, (d, pg) ∈ (crawl Wex).pages ∧ 1 ≤ pg.words.count "hello") ∧
    (∃ i, (build "tf-idf" Wex).trie.searchWord "hello" = some i ∧
      i < (build "tf-idf" Wex).inverted_index.length ∧
      (build "tf-idf" Wex).inverted_index.getD i [] ≠ [] ∧
      (∀ d, dictFind? ((build "tf-idf" Wex).inverted_index.getD i []) d =
        if 1 ≤ freqIn (crawl Wex).pages "hello" d
        then some (freqIn (crawl Wex).pages "hello" d) else none) ∧
      ∀ t', (build "tf-idf" Wex).trie.searchWord t' = some i → t' = "hello") :=
  ⟨⟨"a.html", ⟨"Alpha", ["hello", "hello"]⟩, by decide, by decide⟩,
    C7_term_lookup_posting_invariant "tf-idf" Wex "hello"
      ⟨"a.html", ⟨"Alpha", ["hello", "hello"]⟩, by decide, by decide⟩⟩

/-- Claim C2: `search` is conjunctive — every returned document was crawled
and contains every query term at least once. -/
theorem C2_conjunctive_semantics (mode : String) (W : Web) (q : String)
    (p : String × ℝ) (hp : p ∈ search (build mode W) q) :
    ∃ pg, dictFind? (crawl W).pages p.1 = some pg ∧
      ∀ t ∈ normalizeTokens q, 1 ≤ pg.words.count t := by
  obtain ⟨hne, hall, hmem, _⟩ := mem_search _ q p hp
  have hiff := (mem_matchingDocs_iff mode W (normalizeTokens q) p.1 hne hall).mp hmem
  obtain ⟨t0, ht0⟩ : ∃ t, t ∈ normalizeTokens q := by
    cases hq : normalizeTokens q with
    | nil => exact absurd hq hne
    | cons a l => exact ⟨a, hq ▸ List.mem_cons_self a l⟩
  obtain ⟨pg, hpg⟩ := crawled_of_freqIn_pos (hiff t0 ht0)
  refine ⟨pg, hpg, ?_⟩
  intro t ht
  have hge := hiff t ht
  rw [freqIn, hpg] at hge
  exact hge

theorem C2_witness :
    ∃ pg, dictFind? (crawl Wex).pages "a.html" = some pg ∧
      ∀ t ∈ normalizeTokens "hello", 1 ≤ pg.words.count t :=
  C2_conjunctive_semantics "tf-idf" Wex "hello" ("a.html", (1 : ℝ))
    (by rw [search_Wex_eval]; exact List.mem_singleton.mpr rfl)

/-- Claim C10: every candidate document of a query has an entry in the
document-length table whose value is at least 1, so the TF division
`freq / document_lengths[doc]` is always well defined. -/
theorem C10_candidate_length_positive (W : Web) (q : String) (d : String)
    (hne : normalizeTokens q ≠ [])
    (hall : ∀ t ∈ normalizeTokens q, ((build "tf-idf" W).trie.searchWord t).isSome)
    (hd : d ∈ matchingDocs (build "tf-idf" W) (normalizeTokens q)) :
    ∃ L, dictFind? (build "tf-idf" W).document_lengths d = some L ∧ 1 ≤ L := by
  have hiff := (mem_matchingDocs_iff "tf-idf" W (normalizeTokens q) d hne hall).mp hd
  obtain ⟨t0, ht0⟩ : ∃ t, t ∈ normalizeTokens q := by
    cases hq : normalizeTokens q with
    | nil => exact absurd hq hne
    | cons a l => exact ⟨a, hq ▸ List.mem_cons_self a l⟩
  obtain ⟨pg, hpg⟩ := crawled_of_freqIn_pos (hiff t0 ht0)
  refine ⟨pg.words.length, lengths_lookup "tf-idf" W d hpg, ?_⟩
  have h1 := hiff t0 ht0
  rw [freqIn, hpg] at h1
  have h1' : 1 ≤ pg.words.count t0 := h1
  have h2 := List.count_le_length t0 pg.words
  omega

theorem C10_witness :
    ∃ L, dictFind? (build "tf-idf" Wex).document_lengths "a.html" = some L ∧ 1 ≤ L :=
  C10_candidate_length_positive Wex "hello" "a.html" (by decide) (by decide) (by decide)

/-- Claim C5: for an indexed term, `1 ≤ df ≤ N` and the smoothed IDF is
strictly positive; with N, df and the document's length fixed, the TF-IDF
per-term score is strictly increasing in the raw frequency. -/
theorem C5_idf_positive_and_score_monotone (W : Web) (t d : String)
    (hterm : ∃ d0 pg0, (d0, pg0) ∈ (crawl W).pages ∧ 1 ≤ pg0.words.count t)
    (hdoc : ∃ pg, dictFind? (crawl W).pages d = some pg ∧ 1 ≤ pg.words.length) :
    (1 ≤ dfCount W t ∧ dfCount W t ≤ (crawl W).pages.length ∧
      0 < Real.log ((1 + ((crawl W).pages.length : ℝ)) / (1 + (dfCount W t : ℝ))) + 1) ∧
    ∀ f1 f2 : Nat, f1 < f2 →
      compute_score (build "tf-idf" W) t d f1 (crawl W).pages.length (dfCount W t) <
        compute_score (build "tf-idf" W) t d f2 (crawl W).pages.length (dfCount W t) := by
  obtain ⟨d0, pg0, hmem0, hcnt0⟩ := hterm
  obtain ⟨pg, hpg, hlen⟩ := hdoc
  have hdf1 : 1 ≤ dfCount W t := by
    rw [dfCount]
    have hmemf : (d0, pg0) ∈ (crawl W).pages.filter
        (fun pr => decide (1 ≤ pr.2.words.count t)) :=
      List.mem_filter.mpr ⟨hmem0, by simpa using hcnt0⟩
    have := List.length_pos.mpr (List.ne_nil_of_mem hmemf)
    omega
  have hdfN : dfCount W t ≤ (crawl W).pages.length := List.length_filter_le _ _
  have hidf : 0 < Real.log ((1 + ((crawl W).pages.length : ℝ)) /
      (1 + (dfCount W t : ℝ))) + 1 := by
    have hbpos : (0 : ℝ) < 1 + (dfCount W t : ℝ) := by positivity
    have harg : (1 : ℝ) ≤ (1 + ((crawl W).pages.length : ℝ)) / (1 + (dfCount W t : ℝ)) := by
      rw [le_div_iff hbpos, one_mul]
      have : (dfCount W t : ℝ) ≤ ((crawl W).pages.length : ℝ) := Nat.cast_le.mpr hdfN
      linarith
    have := Real.log_nonneg harg
    linarith
  refine ⟨⟨hdf1, hdfN, hidf⟩, ?_⟩
  intro f1 f2 hf
  simp only [compute_score]
  rw [if_neg (by rw [build_ranking_mode]; exact (by decide : ("tf-idf" : String) ≠ "simple"))]
  have hLlook : (dictFind? ((build "tf-idf" W).document_lengths) d).getD 0 =
      pg.words.length := by
    rw [lengths_lookup "tf-idf" W d hpg, Option.getD_some]
  rw [hLlook]
  have hLpos : (0 : ℝ) < (pg.words.length : ℝ) := by
    have : (1 : ℝ) ≤ (pg.words.length : ℝ) := by exact_mod_cast hlen
    linarith
  exact mul_lt_mul_of_pos_right
    ((div_lt_div_right hLpos).mpr (Nat.cast_lt.mpr hf)) hidf

theorem C5_witness :
    ((1 ≤ dfCount Wex "hello" ∧ dfCount Wex "hello" ≤ (crawl Wex).pages.length ∧
      0 < Real.log ((1 + ((crawl Wex).pages.length : ℝ)) /
        (1 + (dfCount Wex "hello" : ℝ))) + 1) ∧
    ∀ f1 f2 : Nat, f1 < f2 →
      compute_score (build "tf-idf" Wex) "hello" "a.html" f1
          (crawl Wex).pages.length (dfCount Wex "hello") <
        compute_score (build "tf-idf" Wex) "hello" "a.html" f2
          (crawl Wex).pages.length (dfCount Wex "hello")) :=
  C5_idf_positive_and_score_monotone Wex "hello" "a.html"
    ⟨"a.html", ⟨"Alpha", ["hello", "hello"]⟩, by decide, by decide⟩
    ⟨⟨"Alpha", ["hello", "hello"]⟩, by decide, by decide⟩

/-- Claim C1: in TF-IDF mode the score returned with each document is the
sum over the query terms of `(freq/L) * (ln((1+N)/(1+df)) + 1)` plus a
single bonus `0.1 * InboundLinkCounts[D]` (0 when no inbound link is
recorded). -/
theorem C1_tfidf_score_formula (W : Web) (q : String) (p : String × ℝ)
    (hp : p ∈ search (build "tf-idf" W) q) :
    p.2 = ((normalizeTokens q).map (fun t =>
        ((freqIn (crawl W).pages t p.1 : ℝ) / (docLen W p.1 : ℝ)) *
          (Real.log ((1 + ((crawl W).pages.length : ℝ)) /
            (1 + (dfCount W t : ℝ))) + 1))).sum
      + (0.1 : ℝ) * (edgesTo W p.1 : ℝ) := by
  obtain ⟨hne, hall, hmem, hscore⟩ := mem_search _ q p hp
  have hiff := (mem_matchingDocs_iff "tf-idf" W (normalizeTokens q) p.1 hne hall).mp hmem
  obtain ⟨t0, ht0⟩ : ∃ t, t ∈ normalizeTokens q := by
    cases hq : normalizeTokens q with
    | nil => exact absurd hq hne
    | cons a l => exact ⟨a, hq ▸ List.mem_cons_self a l⟩
  obtain ⟨pg, hpg⟩ := crawled_of_freqIn_pos (hiff t0 ht0)
  rw [hscore, docScore_formula "tf-idf" W (normalizeTokens q) p.1
    (by decide) hall ⟨pg, hpg⟩]

theorem C1_witness :
    (("a.html", (1 : ℝ)) ∈ search (build "tf-idf" Wex) "hello") ∧
    (1 : ℝ) = ((normalizeTokens "hello").map (fun t =>
        ((freqIn (crawl Wex).pages t "a.html" : ℝ) / (docLen Wex "a.html" : ℝ)) *
          (Real.log ((1 + ((crawl Wex).pages.length : ℝ)) /
            (1 + (dfCount Wex t : ℝ))) + 1))).sum
      + (0.1 : ℝ) * (edgesTo Wex "a.html" : ℝ) :=
  ⟨by rw [search_Wex_eval]; exact List.mem_singleton.mpr rfl,
   C1_tfidf_score_formula Wex "hello" ("a.html", (1 : ℝ))
     (by rw [search_Wex_eval]; exact List.mem_singleton.mpr rfl)⟩

theorem searchRank_eq_nil_iff (e : Engine) (terms : List String) :
    searchRank e terms = [] ↔ matchingDocs e terms = [] := by
  rw [searchRank]
  constructor
  · intro h
    have hlen := (List.mergeSort_perm ((matchingDocs e terms).map
      (fun doc => (doc, docScore e terms doc))) (fun a b => decide (b.2 ≤ a.2))).length_eq
    rw [h] at hlen
    simp only [List.length_nil, List.length_map] at hlen
    exact List.length_eq_zero.mp hlen.symm
  · intro h
    rw [h, List.map_nil, List.mergeSort_nil]

/-- Claim C8: `search` (a total function — no failure path) returns the
empty list exactly when the query normalises to no terms, some query term
occurs in no crawled document, or no crawled document contains all query
terms. -/
theorem C8_empty_result_characterization (mode : String) (W : Web) (q : String) :
    search (build mode W) q = [] ↔
      normalizeTokens q = [] ∨
      (∃ t ∈ normalizeTokens q, ∀ d pg,
        dictFind? (crawl W).pages d = some pg → pg.words.count t = 0) ∨
      (∀ d pg, dictFind? (crawl W).pages d = some pg →
        ∃ t ∈ normalizeTokens q, pg.words.count t = 0) := by
  constructor
  · intro hempty
    by_cases h1 : normalizeTokens q = []
    · exact Or.inl h1
    by_cases h2 : ∀ t ∈ normalizeTokens q, ((build mode W).trie.searchWord t).isSome
    · right
      right
      intro d pg hpg
      by_contra hno
      push_neg at hno
      have hd : d ∈ matchingDocs (build mode W) (normalizeTokens q) := by
        rw [mem_matchingDocs_iff mode W (normalizeTokens q) d h1 h2]
        intro t ht
        rw [freqIn, hpg]
        show 1 ≤ pg.words.count t
        have := hno t ht
        omega
      have hne3 : matchingDocs (build mode W) (normalizeTokens q) ≠ [] :=
        List.ne_nil_of_mem hd
      rw [search_eq_rank _ _ h1 h2 hne3] at hempty
      exact hne3 ((searchRank_eq_nil_iff _ _).mp hempty)
    · push_neg at h2
      obtain ⟨t, ht, hnone⟩ := h2
      have hnone2 : (build mode W).trie.searchWord t = none := by simpa using hnone
      right
      left
      refine ⟨t, ht, ?_⟩
      intro d pg hpg
      have hw2i : dictFind? (buildState W).word_to_index t = none := by
        rw [← build_word_to_index mode W, ← build_trie_search]
        exact hnone2
      have hz := (buildState_inv W).unknownAbsent t hw2i d
      rw [freqIn, hpg] at hz
      exact hz
  · intro hcase
    by_cases h1 : normalizeTokens q = []
    · exact search_empty_of_no_terms _ q h1
    by_cases h2 : ∀ t ∈ normalizeTokens q, ((build mode W).trie.searchWord t).isSome
    · apply search_empty_of_no_match
      by_contra hne
      obtain ⟨d, hd⟩ := List.exists_mem_of_ne_nil _ hne
      have hiff := (mem_matchingDocs_iff mode W (normalizeTokens q) d h1 h2).mp hd
      obtain ⟨t0, ht0⟩ : ∃ t, t ∈ normalizeTokens q := by
        cases hq : normalizeTokens q with
        | nil => exact absurd hq h1
        | cons a l => exact ⟨a, hq ▸ List.mem_cons_self a l⟩
      obtain ⟨pg, hpg⟩ := crawled_of_freqIn_pos (hiff t0 ht0)
      rcases hcase with h1' | ⟨t, ht, hunk⟩ | hint
      · exact h1 h1'
      · have hge := hiff t ht
        rw [freqIn, hpg] at hge
        have hz := hunk d pg hpg
        have hge' : 1 ≤ pg.words.count t := hge
        omega
      · obtain ⟨t, ht, hz⟩ := hint d pg hpg
        have hge := hiff t ht
        rw [freqIn, hpg] at hge
        have hge' : 1 ≤ pg.words.count t := hge
        omega
    · push_neg at h2
      obtain ⟨t, ht, hnone⟩ := h2
      have hnone2 : (build mode W).trie.searchWord t = none := by simpa using hnone
      exact search_empty_of_unknown _ q ht hnone2

/-- Counterexample to claim C3 as stated: `search` does not return
(identifier, title, score) triples.  On the example collection the result
is exactly the pair list `[("a.html", 1)]` — identifier and score only —
while the document's recorded title is `"Alpha"`, which appears nowhere in
the returned value (the CLI layer looks the title up separately from
`pages`). -/
theorem C3_counterexample :
    search (build "tf-idf" Wex) "hello" = [("a.html", (1 : ℝ))] ∧
    dictFind? (build "tf-idf" Wex).pages "a.html" =
      some ⟨"Alpha", ["hello", "hello"]⟩ :=
  ⟨search_Wex_eval, by decide⟩

/-- Claim C3 (amended): `search` returns an ordered list of (document
identifier, score) pairs — the title is not part of the return value —
sorted by descending score, each identifier being a crawled document
carrying its ranking-loop score, and the empty list when there is no
match. -/
theorem C3_sorted_desc_pairs (mode : String) (W : Web) (q : String) :
    List.Pairwise (fun (a b : String × ℝ) => b.2 ≤ a.2) (search (build mode W) q) ∧
    (∀ p ∈ search (build mode W) q,
      (∃ pg, dictFind? (crawl W).pages p.1 = some pg) ∧
      p.2 = docScore (build mode W) (normalizeTokens q) p.1) ∧
    (matchingDocs (build mode W) (normalizeTokens q) = [] →
      search (build mode W) q = []) := by
  refine ⟨search_sorted _ q, ?_, fun h => search_empty_of_no_match _ q h⟩
  intro p hp
  obtain ⟨hne, hall, hmem, hscore⟩ := mem_search _ q p hp
  refine ⟨?_, hscore⟩
  have hiff := (mem_matchingDocs_iff mode W (normalizeTokens q) p.1 hne hall).mp hmem
  obtain ⟨t0, ht0⟩ : ∃ t, t ∈ normalizeTokens q := by
    cases hq : normalizeTokens q with
    | nil => exact absurd hq hne
    | cons a l => exact ⟨a, hq ▸ List.mem_cons_self a l⟩
  exact crawled_of_freqIn_pos (hiff t0 ht0)

theorem C3_witness :
    List.Pairwise (fun (a b : String × ℝ) => b.2 ≤ a.2)
      (search (build "tf-idf" Wex) "hello") ∧
    (∀ p ∈ search (build "tf-idf" Wex) "hello",
      (∃ pg, dictFind? (crawl Wex).pages p.1 = some pg) ∧
      p.2 = docScore (build "tf-idf" Wex) (normalizeTokens "hello") p.1) ∧
    (matchingDocs (build "tf-idf" Wex) (normalizeTokens "hello") = [] →
      search (build "tf-idf" Wex) "hello" = []) :=
  C3_sorted_desc_pairs "tf-idf" Wex "hello"

/-- Counterexample to claim C4 as stated: a `search` call does mutate an
index structure.  On the example collection the matching document
`a.html` has no recorded inbound links, so the ranking loop's
`self.incoming_links[doc]` read materialises a fresh `("a.html", 0)` entry
in the inbound-link `defaultdict`: the container differs before and after
the call. -/
theorem C4_counterexample :
    (searchState (build "tf-idf" Wex) "hello").incoming_links ≠
      (build "tf-idf" Wex).incoming_links := by
  decide

/-- Claim C4 (amended): after `build_index`, a `search` call leaves the
inverted index, term lookup (trie and word dict), document lengths, pages,
link map and ranking mode unchanged; the inbound-link table can only gain
zero-valued entries for scored documents it lacked, so every document's
effective inbound count (read with the defaultdict's 0 default) is
unchanged. -/
theorem C4_search_readonly_up_to_zero_entries (mode : String) (W : Web) (q : String) :
    (searchState (build mode W) q).trie = (build mode W).trie ∧
    (searchState (build mode W) q).inverted_index = (build mode W).inverted_index ∧
    (searchState (build mode W) q).word_to_index = (build mode W).word_to_index ∧
    (searchState (build mode W) q).document_lengths = (build mode W).document_lengths ∧
    (searchState (build mode W) q).pages = (build mode W).pages ∧
    (searchState (build mode W) q).linksMap = (build mode W).linksMap ∧
    (searchState (build mode W) q).ranking_mode = (build mode W).ranking_mode ∧
    ∀ d, (dictFind? (searchState (build mode W) q).incoming_links d).getD 0 =
      (dictFind? (build mode W).incoming_links d).getD 0 := by
  obtain ⟨hmode, hpages, hlinks, htrie, hinv, hw2i, hlen⟩ :=
    searchState_other_fields (build mode W) q
  exact ⟨htrie, hinv, hw2i, hlen, hpages, hlinks, hmode,
    fun d => searchState_incoming_get (build mode W) q d⟩

theorem C4_witness :
    (searchState (build "tf-idf" Wex) "hello").trie = (build "tf-idf" Wex).trie ∧
    (searchState (build "tf-idf" Wex) "hello").inverted_index =
      (build "tf-idf" Wex).inverted_index ∧
    (searchState (build "tf-idf" Wex) "hello").word_to_index =
      (build "tf-idf" Wex).word_to_index ∧
    (searchState (build "tf-idf" Wex) "hello").document_lengths =
      (build "tf-idf" Wex).document_lengths ∧
    (searchState (build "tf-idf" Wex) "hello").pages = (build "tf-idf" Wex).pages ∧
    (searchState (build "tf-idf" Wex) "hello").linksMap = (build "tf-idf" Wex).linksMap ∧
    (searchState (build "tf-idf" Wex) "hello").ranking_mode =
      (build "tf-idf" Wex).ranking_mode ∧
    ∀ d, (dictFind? (searchState (build "tf-idf" Wex) "hello").incoming_links d).getD 0 =
      (dictFind? (build "tf-idf" Wex).incoming_links d).getD 0 :=
  C4_search_readonly_up_to_zero_entries "tf-idf" Wex "hello"
